import Mathlib

/-!
Verification development for the jsoncxx repository (seonho/jsoncxx).

The repository is a C++ header-only JSON library containing several
historical revisions of the same components:

* `value.hpp` — class `Value<Encoding>` with `std::map`-backed objects;
* `jsoncxx.hpp` (second section) — class `Value<Encoding>` with
  `std::unordered_map`-backed objects;
* `src/unnamed/part_000` — class `generic_value<Encoding>` (the variant
  used by the readers in `stream.hpp` and `reader.hpp`);
* `stream.hpp` — `generic_reader` (recursive-descent parser, the refined
  revision) plus the string-stream types;
* `reader.hpp` — an older `generic_reader` revision;
* `src/unnamed/part_002` — class `Reader` (another parser revision built
  on `value.hpp`'s `Value`);
* `writer.hpp` — class `writer` (serializer for `generic_value`);
* `src/unnamed/part_003` — class `Writer` (same serializer for `Value`).

This file gives a shallow embedding of those components.  Characters are
Lean `Char`, C strings are `List Char` (the NUL terminator of the C
buffer is represented by the end of the list; reading at the end yields
the `'\0'` sentinel, exactly as `generic_stringstream::peek` reads the
terminator).  The C++ `natural` type (`long long`) is modelled as `Int`
together with explicit 64-bit range checks where the code can overflow,
and the C++ `real` type (`double`) is modelled as `Rat`; places where
the value-level model abstracts from IEEE-754 bit patterns are noted at
the definition concerned.
-/

namespace Jsoncxx

/-! ## Characters

Named characters used by the grammar.  `nulc` is the NUL terminator that
`generic_stringstream::peek` returns at the end of the buffer. -/

def nulc : Char := Char.ofNat 0

def dquote : Char := Char.ofNat 34

def bslash : Char := Char.ofNat 92

def lcurly : Char := Char.ofNat 123

def rcurly : Char := Char.ofNat 125

/-- Reading the current character of a stream without advancing:
`generic_stringstream::peek` (`stream.hpp` line 65) returns `*src_`,
which is the NUL terminator once the cursor reached the end. -/
def peekC (s : List Char) : Char := s.headD nulc

/-- The four JSON whitespace characters recognised by `SkipWhitespace`
(`stream.hpp` part of `jsoncxx.hpp` / `reader.hpp` / `part_002`):
space, line feed, carriage return, horizontal tab. -/
def isWsChar (c : Char) : Bool :=
  c = ' ' || c = '\n' || c = '\r' || c = '\t'

/-- `SkipWhitespace(stream)`: advance the cursor over whitespace
characters (`while (s.peek() == ' ' || ... ) s.take();`). -/
def skipWs : List Char → List Char
  | [] => []
  | c :: t => if isWsChar c then skipWs t else c :: t

/-! ## Numbers

`struct Number` / `struct number` holds a union of `natural n` (C++
`long long`, modelled `Int`) and `real r` (C++ `double`, modelled `Rat`)
together with a `NumericType` discriminator.  All constructors of the
library keep the discriminator consistent with the stored member, so the
pair is modelled as a sum; the discriminator is recovered by
`NumberH.kind`. -/

/-- `enum NumericType { NaturalNumber, RealNumber }`. -/
inductive NumericType
  | naturalNumber
  | realNumber
  deriving DecidableEq, Repr

/-- The `Number`/`number` payload: exactly one of the union members is
active, as established by every constructor of the value classes. -/
inductive NumberH
  | hn (n : Int)
  | hr (r : Rat)
  deriving DecidableEq, Repr

/-- The `type_` discriminator stored next to the union. -/
def NumberH.kind : NumberH → NumericType
  | .hn _ => .naturalNumber
  | .hr _ => .realNumber

/-- C++ `static_cast<natural>(double)`: truncation toward zero. -/
def truncQ (q : Rat) : Int :=
  if 0 ≤ q then ⌊q⌋ else ⌈q⌉

/-- `Value::asNatural` of `value.hpp` (lines 412-418) and of the second
section of `jsoncxx.hpp` (lines 577-583): if the stored kind is
`NaturalNumber` return the integer member, otherwise return
`static_cast<natural>(num_.r)` — a numeric conversion of the stored
double. -/
def vAsNatural : NumberH → Int
  | .hn n => n
  | .hr r => truncQ r

/-- `Value::asReal` of `value.hpp` (lines 421-427): if the stored kind
is `RealNumber` return the double member, otherwise
`static_cast<real>(num_.n)`. -/
def vAsReal : NumberH → Rat
  | .hn n => (n : Rat)
  | .hr r => r

/-- `generic_value::asNatural` of `src/unnamed/part_000` (lines 521-526)
returns `value_.n.num_.n` unconditionally: when the active union member
is the double, the C++ code re-reads the double's object representation
as `long long` and performs no numeric conversion.  The value-level
model cannot express the resulting bit pattern, so the inactive-member
read is modelled as `none`: the function yields no numeric conversion of
the stored real.  (Its assertion `type_ == NumberType || value_.n.type_
== NaturalNumber` is satisfied by any `NumberType` value, so it does not
prevent the mismatched read.) -/
def p000AsNatural : NumberH → Option Int
  | .hn n => some n
  | .hr _ => none

/-- `generic_value::asReal` of `src/unnamed/part_000` (lines 528-533)
returns `value_.n.num_.r` unconditionally; mismatched read modelled as
`none` as in `p000AsNatural`. -/
def p000AsReal : NumberH → Option Rat
  | .hn _ => none
  | .hr r => some r

/-! ## The document value model

`generic_value` / `Value` is a tagged variant.  Arrays are
`std::list<Value>` in insertion order, modelled as `List JValue`.
Objects are hash/ordered maps from string keys to values; the model
stores the members as an association list in first-insertion order
(the iteration order of the C++ `std::unordered_map` and hash-ordered
`std::map` is container-specific; member lookup and update semantics,
which the claims are about, do not depend on it). -/

inductive JValue
  | vnull
  | vfalse
  | vtrue
  | vnum (h : NumberH)
  | vstr (s : List Char)
  | varr (elems : List JValue)
  | vobj (members : List (List Char × JValue))

open JValue

/-- Member lookup by key (string equality, as `std::equal_to` /
`operator<` on tie compare the character content). -/
def lookupK : List (List Char × JValue) → List Char → Option JValue
  | [], _ => none
  | (k', v') :: t, k => if k' = k then some v' else lookupK t k

/-- `generic_value::insert` of `src/unnamed/part_000` (lines 480-483)
and `Value::insert` of `jsoncxx.hpp` (lines 533-537):
`(value_.o)[key] = value;` — `object::operator[](key_type&)` finds the
member with that key and the assignment overwrites its mapped value in
place; if the key is absent a new pair is emplaced. -/
def insertOverwrite : List (List Char × JValue) → List Char → JValue →
    List (List Char × JValue)
  | [], k, v => [(k, v)]
  | (k', v') :: t, k, v =>
      if k' = k then (k', v) :: t else (k', v') :: insertOverwrite t k v

/-- `Value::insert` of `value.hpp` (lines 520-524):
`value_.o.members_->emplace(std::make_pair(std::move(key),
std::move(value)));` — `std::map::emplace` with an already-present key
inserts nothing, so the existing mapped value is kept. -/
def insertKeepFirst (o : List (List Char × JValue)) (k : List Char)
    (v : JValue) : List (List Char × JValue) :=
  if (lookupK o k).isSome then o else o ++ [(k, v)]

/-- `Array::operator[](size_t)` of `value.hpp` (lines 94-102), identical
in `jsoncxx.hpp` (lines 127-135) and `part_000` (lines 80-88): if
`index < size()` return `*std::next(elements_->begin(), index)`, the
index-th element in insertion order; otherwise
`throw std::runtime_error("Out of range")`. -/
def arrGet (l : List JValue) (index : Nat) : Except String JValue :=
  if h : index < l.length then .ok (l.get ⟨index, h⟩)
  else .error "Out of range"

/-! ## Errors

Exceptions thrown while parsing.  The `JSONCXX_PARSING_ERROR` sites
throw `parsing_error`, which derives from `std::runtime_error`; the
numeric conversions `std::stoll` / `std::stod` throw
`std::invalid_argument` and `std::out_of_range`, which derive from
`std::logic_error`, not from `std::runtime_error`.  `fuel` is a model
artifact standing for exhaustion of the recursion bound (the C++ code
has no such bound; the bound used below is large enough for every
terminating run, see `gParseCore`). -/

inductive Err
  | wsOnly                  -- "Text only contains white space(s)."
  | rootNotContainer        -- "Except either an object or array at root."
  | trailing                -- "Nothig should follow the root object or array."
  | memberNameNotString     -- "Name of an object member must be a string"
  | colonExpected           -- "There must be a colon after the name of object member"
  | commaOrCurlyExpected    -- "Must be a comma or ... after an object member"
  | commaOrBracketExpected  -- "Must be a comma or ... after an array member"
  | invalidValue            -- "Invalid value"
  | unterminatedString      -- "Lacks ending quation before the the end of string"
  | unsupportedEscape       -- "Currently not supported!"
  | invalidArgument         -- std::invalid_argument (from std::stoll / std::stod)
  | outOfRange              -- std::out_of_range (from std::stoll / std::stod)
  | fuel                    -- model artifact: recursion bound exhausted
  deriving DecidableEq, Repr

/-- Whether the exception is a `parsing_error`, i.e. derives from
`std::runtime_error` and is therefore caught by
`catch (std::runtime_error& e)` in `generic_reader::parse`
(`stream.hpp` line 312).  `std::invalid_argument` and
`std::out_of_range` derive from `std::logic_error` and are not. -/
def Err.isParsingError : Err → Bool
  | .invalidArgument => false
  | .outOfRange => false
  | .fuel => false
  | _ => true

/-! ## Decimal text

Decimal rendering of `natural` values (`std::ostream << long long`) and
the standard-library numeric conversions used by `parseNumber`. -/

/-- The decimal digit character for `d < 10` (`'0' + d`). -/
def digitChar (d : Nat) : Char := Char.ofNat (48 + d)

/-- Digits of a natural number, most significant first, accumulator
form. -/
def natToCharsAux : Nat → List Char → List Char
  | n, acc =>
    if n < 10 then digitChar n :: acc
    else natToCharsAux (n / 10) (digitChar (n % 10) :: acc)
  termination_by n _ => n
  decreasing_by exact Nat.div_lt_self (by omega) (by omega)

/-- Decimal digits of a natural number, e.g. `natToChars 105 = "105"`. -/
def natToChars (n : Nat) : List Char := natToCharsAux n []

/-- `std::ostream << (long long)n`: optional minus sign followed by the
decimal digits. -/
def intToChars (n : Int) : List Char :=
  if n < 0 then '-' :: natToChars (-n).toNat else natToChars n.toNat

/-- Numeric value of a digit string (most significant first). -/
def valOfDigits (l : List Char) : Nat :=
  l.foldl (fun a c => 10 * a + (c.toNat - 48)) 0

/-- Smallest value of the C++ `natural` type (`long long`). -/
def int64Min : Int := -(2 ^ 63)

/-- Largest value of the C++ `natural` type (`long long`). -/
def int64Max : Int := 2 ^ 63 - 1

/-- Whether an integer fits the C++ `natural` type. -/
def inInt64 (n : Int) : Bool := int64Min ≤ n && n ≤ int64Max

/-- An ASCII decimal digit (`c >= '0' && c <= '9'`, stated on code
points). -/
def isDigitC (c : Char) : Bool := decide (48 ≤ c.toNat ∧ c.toNat ≤ 57)

/-- The six characters `isspace` accepts in the C locale. -/
def isCSpace (c : Char) : Bool :=
  c = ' ' || c = '\t' || c = '\n' || c = '\r' ||
  c = Char.ofNat 11 || c = Char.ofNat 12

/-- Model of `std::stoll` (used by `parseNumber`): skip C-locale
whitespace, read an optional sign and then the longest run of decimal
digits.  If there are no digits, throw `std::invalid_argument`; if the
value does not fit `long long`, throw `std::out_of_range`; otherwise
the value of the consumed digits.  (Base is 10; the hexadecimal and
octal forms of `strtoll` cannot arise from the parser's token set.) -/
def stollModel (l : List Char) : Except Err Int :=
  let l1 := l.dropWhile isCSpace
  let sgn : Int := if peekC l1 = '-' then -1 else 1
  let l2 := if peekC l1 = '-' ∨ peekC l1 = '+' then l1.tail else l1
  let ds := l2.takeWhile isDigitC
  if ds = [] then .error .invalidArgument
  else
    let v : Int := sgn * (valOfDigits ds : Int)
    if v < int64Min || int64Max < v then .error .outOfRange
    else .ok v

/-- Model of `std::stod` (used by `parseNumber` on tokens containing a
dot): skip whitespace, optional sign, digits with an optional fractional
part, optional exponent (`e`/`E`, optional sign, digits; an exponent
marker not followed by digits is not part of the converted prefix).  No
digits at all throws `std::invalid_argument`; a value beyond the
largest finite double throws `std::out_of_range`.  The converted value
is modelled exactly as a rational; rounding to the nearest double and
underflow behaviour are below the granularity of this model. -/
def stodModel (l : List Char) : Except Err Rat :=
  let l1 := l.dropWhile isCSpace
  let sgn : Rat := if peekC l1 = '-' then -1 else 1
  let l2 := if peekC l1 = '-' ∨ peekC l1 = '+' then l1.tail else l1
  let ds := l2.takeWhile isDigitC
  let l3 := l2.drop ds.length
  let fs := if peekC l3 = '.' then l3.tail.takeWhile isDigitC else []
  let l4 := if peekC l3 = '.' then l3.tail.drop fs.length else l3
  if ds = [] ∧ fs = [] then .error .invalidArgument
  else
    let e : Int :=
      if peekC l4 = 'e' ∨ peekC l4 = 'E' then
        let t := l4.tail
        let esgn : Int := if peekC t = '-' then -1 else 1
        let t2 := if peekC t = '-' ∨ peekC t = '+' then t.tail else t
        let eds := t2.takeWhile isDigitC
        if eds = [] then 0 else esgn * (valOfDigits eds : Int)
      else 0
    let q : Rat :=
      sgn * ((valOfDigits ds : Rat) +
             (valOfDigits fs : Rat) / (10 : Rat) ^ fs.length) * (10 : Rat) ^ e
    if |q| ≥ (2 : Rat) ^ (1024 : Nat) then .error .outOfRange
    else .ok q

/-- Drop trailing `'0'` characters. -/
def stripZerosTail (l : List Char) : List Char :=
  (l.reverse.dropWhile (fun c => c = '0')).reverse

/-- Exponent field of the default scientific rendering: sign followed by
at least two digits. -/
def expChars (d : Int) : List Char :=
  (if d < 0 then '-' else '+') ::
    (if d.natAbs < 10 then '0' :: natToChars d.natAbs else natToChars d.natAbs)

/-- Model of `std::ostream << double` with default `precision() == 6`
(used by `writeNumber` and `operator<<` for `RealNumber` payloads): the
value is rendered with 6 significant digits in `%g` style — fixed
notation when the decimal exponent `d` satisfies `-4 ≤ d < 6`,
scientific notation (`m.mmmmme±xx`) otherwise, with trailing zeros of
the fractional part removed.  The double is modelled as the exact
rational it stands for; rounding of the significand is half-up rather
than the platform's round-half-even, which differs only at exact
half-way significands and is irrelevant to the theorems below (none
depends on this function's digits). -/
def realToChars (q : Rat) : List Char :=
  if q = 0 then ['0']
  else
    let a : Rat := |q|
    let d0 : Int := Int.log 10 a
    let m0 : Int := ⌊a * (10 : Rat) ^ ((5 : Int) - d0) + 1 / 2⌋
    let m : Int := if 10 ^ 6 ≤ m0 then m0 / 10 else m0
    let d : Int := if 10 ^ 6 ≤ m0 then d0 + 1 else d0
    let digits := natToChars m.toNat
    let sgn : List Char := if q < 0 then ['-'] else []
    if -4 ≤ d ∧ d < 6 then
      if 0 ≤ d then
        let ip := digits.take (d.toNat + 1)
        let fp := stripZerosTail (digits.drop (d.toNat + 1))
        sgn ++ ip ++ (if fp = [] then [] else '.' :: fp)
      else
        let fp := stripZerosTail (List.replicate (-d - 1).toNat '0' ++ digits)
        sgn ++ '0' :: '.' :: fp
    else
      match digits with
      | c :: cs =>
        let fp := stripZerosTail cs
        sgn ++ c :: (if fp = [] then [] else '.' :: fp) ++ 'e' :: expChars d
      | [] => ['0']

/-! ## Serializers

`writer` of `writer.hpp` (used with `generic_value`) and the stream
`operator<<` of `value.hpp` (lines 528-591). -/

/-- `writer::writeNumber` (`writer.hpp` lines 81-87), identical in
`Writer` (`part_003`) and in the `NumberType` case of the `operator<<`
of `value.hpp`/`jsoncxx.hpp`/`part_000`: the integer member is printed
for `NaturalNumber`, the double member for `RealNumber`. -/
def serNum : NumberH → List Char
  | .hn n => intToChars n
  | .hr r => realToChars r

mutual

/-- `writer::operator<<` of `writer.hpp` (lines 31-56) dispatching on
the value's type to `writeNull`/`writeBoolean`/`writeNumber`/
`writeString`/`writeArray`/`writeObject`.  `writeArray` (lines 96-107)
writes `'['`, each element of
`[begin, next(begin, size()-1))` followed by `','`, then `back()`, then
`']'`; `writeObject` (lines 109-126) writes the members as
`"key":value` the same way.  For an empty container `a.size() - 1`
underflows (`size_type` is `unsigned int`), so `std::next` walks past
the end of the `std::list` and `back()` dereferences the sentinel of an
empty list — undefined behaviour, modelled as `none` (no text is
produced). -/
def serW : JValue → Option (List Char)
  | .vnull => some ['n', 'u', 'l', 'l']
  | .vfalse => some ['f', 'a', 'l', 's', 'e']
  | .vtrue => some ['t', 'r', 'u', 'e']
  | .vnum h => some (serNum h)
  | .vstr s => some (dquote :: s ++ [dquote])
  | .varr [] => none
  | .varr (e :: es) => do
      let h ← serW e
      let t ← serWElems es
      some ('[' :: h ++ t ++ [']'])
  | .vobj [] => none
  | .vobj (m :: ms) => do
      let h ← serWMember m
      let t ← serWMembers ms
      some (lcurly :: h ++ t ++ [rcurly])

/-- The remaining array elements, each preceded by the `','` that
`writeArray` put after the element before it. -/
def serWElems : List JValue → Option (List Char)
  | [] => some []
  | e :: es => do
      let h ← serW e
      let t ← serWElems es
      some (',' :: h ++ t)

/-- One object member as written by `writeObject`'s `func`:
`(*this) << pair.first` (the key, a String value, hence quoted),
`put(':')`, `(*this) << pair.second`. -/
def serWMember : List Char × JValue → Option (List Char)
  | (k, v) => do
      let sv ← serW v
      some (dquote :: k ++ dquote :: ':' :: sv)

/-- The remaining object members, each preceded by `','`. -/
def serWMembers : List (List Char × JValue) → Option (List Char)
  | [] => some []
  | m :: ms => do
      let h ← serWMember m
      let t ← serWMembers ms
      some (',' :: h ++ t)

end

mutual

/-- The stream `operator<<` of `value.hpp` (lines 528-591): `null`,
`false`, `true` and numbers as in the writer; strings quoted; arrays as
`'['` + elements joined by `", "` + `']'` with an `empty()` guard, so an
empty array prints `[]`; objects as `'\x7b'` + members joined by `", "`
+ `'\x7d'` with an `empty()` guard, each member printed by the lambda as
`key << " : " << value` with the key quoted. -/
def serV : JValue → List Char
  | .vnull => ['n', 'u', 'l', 'l']
  | .vfalse => ['f', 'a', 'l', 's', 'e']
  | .vtrue => ['t', 'r', 'u', 'e']
  | .vnum h => serNum h
  | .vstr s => dquote :: s ++ [dquote]
  | .varr es => '[' :: serVElems es ++ [']']
  | .vobj ms => lcurly :: serVMembers ms ++ [rcurly]

/-- Array elements joined by `", "` (`std::ostream_iterator` with
delimiter `", "` over all but the last element, then `back()`). -/
def serVElems : List JValue → List Char
  | [] => []
  | [e] => serV e
  | e :: es => serV e ++ ',' :: ' ' :: serVElems es

/-- Object members joined by `", "`, each rendered
`"key" : value`. -/
def serVMembers : List (List Char × JValue) → List Char
  | [] => []
  | [(k, v)] => dquote :: k ++ dquote :: ' ' :: ':' :: ' ' :: serV v
  | (k, v) :: ms =>
      (dquote :: k ++ dquote :: ' ' :: ':' :: ' ' :: serV v) ++
        ',' :: ' ' :: serVMembers ms

end

/-! ## The parser of `stream.hpp` (`generic_reader`)

The reader is a recursive-descent parser over a `generic_stringstream`.
Recursive calls are modelled with an explicit fuel argument; the C++
recursion has no bound, but every recursive call and every loop
iteration first consumes at least one character, so the bound
`4 * length + 8` used by `gParseCore` is never exhausted on a
terminating run (`Err.fuel` is a model artifact that no theorem below
relies on). -/

/-- The scan loop of `generic_reader::parseString` (`stream.hpp` lines
475-486), starting just after the opening quote, with the characters
consumed so far accumulated (the C++ code instead slices the span
between the quotes; the result is the same list of characters):
a `'"'` ends the token, `'\0'` throws "Lacks ending quation before the
the end of string", a backslash throws "Currently not supported!", any
other character is consumed. -/
def goString : List Char → List Char → Except Err (List Char × List Char)
  | [], _ => .error .unterminatedString
  | c :: t, acc =>
    if c = dquote then .ok (acc.reverse, t)
    else if c = nulc then .error .unterminatedString
    else if c = bslash then .error .unsupportedEscape
    else goString t (c :: acc)

/-- `generic_reader::parseString` (`stream.hpp` lines 460-489; the
identical function appears in `part_002` lines 340-363): skip the
opening quote the caller checked for and scan to the closing quote,
returning the raw characters between the quotes and the stream advanced
past the closing quote. -/
def gParseStringRaw (s : List Char) : Except Err (List Char × List Char) :=
  goString s.tail []

/-- `generic_reader::parseNull` (`stream.hpp` lines 392-403): consume
`'n'` and require the following characters to be `'u'`, `'l'`, `'l'`;
any mismatch throws "Invalid value".  (The C++ code always consumes
four characters before deciding; on the error path the stream position
is irrelevant because the exception unwinds the parse.) -/
def gParseNull : List Char → Except Err (JValue × List Char)
  | 'n' :: 'u' :: 'l' :: 'l' :: rest => .ok (.vnull, rest)
  | _ => .error .invalidValue

/-- `generic_reader::parseTrue` (`stream.hpp` lines 406-417). -/
def gParseTrue : List Char → Except Err (JValue × List Char)
  | 't' :: 'r' :: 'u' :: 'e' :: rest => .ok (.vtrue, rest)
  | _ => .error .invalidValue

/-- `generic_reader::parseFalse` (`stream.hpp` lines 420-432). -/
def gParseFalse : List Char → Except Err (JValue × List Char)
  | 'f' :: 'a' :: 'l' :: 's' :: 'e' :: rest => .ok (.vfalse, rest)
  | _ => .error .invalidValue

/-- The character set of `parseNumber`'s lexical scan (`stream.hpp`
lines 440-443): ASCII digits, `'.'`, `'e'`, `'E'`, `'-'`, `'+'`. -/
def isScanChar (c : Char) : Bool :=
  isDigitC c || c = '.' || c = 'e' || c = 'E' || c = '-' || c = '+'

/-- The speculative scan of `parseNumber`: advance a stream copy while
the character is in the scan set; the consumed span is the token. -/
def scanNum : List Char → List Char × List Char
  | [] => ([], [])
  | c :: t =>
    if isScanChar c then
      let (a, b) := scanNum t
      (c :: a, b)
    else ([], c :: t)

/-- `generic_reader::parseNumber` (`stream.hpp` lines 435-457): scan the
token; if it contains no `'.'` convert it with `std::stoll` and store a
`NaturalNumber`, otherwise convert it with `std::stod` and store a
`RealNumber`; then commit the scanned position.  Conversion exceptions
propagate out of the function. -/
def gParseNumber (s : List Char) : Except Err (JValue × List Char) :=
  let (tok, rest) := scanNum s
  if '.' ∈ tok then
    match stodModel tok with
    | .ok r => .ok (.vnum (.hr r), rest)
    | .error e => .error e
  else
    match stollModel tok with
    | .ok n => .ok (.vnum (.hn n), rest)
    | .error e => .error e

mutual

/-- `generic_reader::parseValue` (`stream.hpp` lines 492-504): dispatch
on the peeked character — `'n'`/`'t'`/`'f'` to the literal parsers,
`'"'` to `parseString`, `'\x7b'` to `parseObject`, `'['` to
`parseArray`, anything else to `parseNumber`. -/
def gParseValue : Nat → List Char → Except Err (JValue × List Char)
  | 0, _ => .error .fuel
  | f + 1, s =>
    let c := peekC s
    if c = 'n' then gParseNull s
    else if c = 't' then gParseTrue s
    else if c = 'f' then gParseFalse s
    else if c = dquote then
      match gParseStringRaw s with
      | .ok (str, rest) => .ok (.vstr str, rest)
      | .error e => .error e
    else if c = lcurly then gParseObject f s
    else if c = '[' then gParseArray f s
    else gParseNumber s

/-- `generic_reader::parseObject` (`stream.hpp` lines 323-360): consume
the `'\x7b'` the caller peeked, skip whitespace; a `'\x7d'` closes an
empty object, otherwise run the member loop. -/
def gParseObject : Nat → List Char → Except Err (JValue × List Char)
  | 0, _ => .error .fuel
  | f + 1, s =>
    let s1 := skipWs s.tail
    if peekC s1 = rcurly then .ok (.vobj [], s1.tail)
    else gObjLoop f [] s1

/-- The member loop of `parseObject` (`stream.hpp` lines 336-357): the
member name must start with `'"'` (else "Name of an object member must
be a string"); after the name, whitespace and then `':'` is required
(else "There must be a colon after the name of object member"); the
member value is parsed recursively and inserted with
`ret.insert(std::move(key), parseValue(...))` — `generic_value::insert`,
which overwrites the mapped value of an existing key
(`insertOverwrite`); after the member, `','` continues the loop and
`'\x7d'` returns, anything else throws "Must be a comma or '\x7d' after
an object member". -/
def gObjLoop : Nat → List (List Char × JValue) → List Char →
    Except Err (JValue × List Char)
  | 0, _, _ => .error .fuel
  | f + 1, acc, s =>
    if peekC s ≠ dquote then .error .memberNameNotString
    else
      match gParseStringRaw s with
      | .error e => .error e
      | .ok (k, s1) =>
        let s2 := skipWs s1
        if peekC s2 ≠ ':' then .error .colonExpected
        else
          match gParseValue f (skipWs s2.tail) with
          | .error e => .error e
          | .ok (v, s4) =>
            let acc2 := insertOverwrite acc k v
            let s5 := skipWs s4
            if peekC s5 = ',' then gObjLoop f acc2 (skipWs s5.tail)
            else if peekC s5 = rcurly then .ok (.vobj acc2, s5.tail)
            else .error .commaOrCurlyExpected

/-- `generic_reader::parseArray` (`stream.hpp` lines 364-389): consume
the `'['`, skip whitespace; a `']'` closes an empty array, otherwise run
the element loop. -/
def gParseArray : Nat → List Char → Except Err (JValue × List Char)
  | 0, _ => .error .fuel
  | f + 1, s =>
    let s1 := skipWs s.tail
    if peekC s1 = ']' then .ok (.varr [], s1.tail)
    else gArrLoop f [] s1

/-- The element loop of `parseArray` (`stream.hpp` lines 377-386):
parse a value recursively, append it; then `','` continues and `']'`
returns, anything else throws "Must be a comma or ']' after an array
member". -/
def gArrLoop : Nat → List JValue → List Char → Except Err (JValue × List Char)
  | 0, _, _ => .error .fuel
  | f + 1, acc, s =>
    match gParseValue f s with
    | .error e => .error e
    | .ok (v, s1) =>
      let acc2 := acc ++ [v]
      let s2 := skipWs s1
      if peekC s2 = ',' then gArrLoop f acc2 (skipWs s2.tail)
      else if peekC s2 = ']' then .ok (.varr acc2, s2.tail)
      else .error .commaOrBracketExpected

end

/-- The body of `generic_reader::parse` (`stream.hpp` lines 286-318)
before exception handling: skip whitespace; a `'\0'` peek throws "Text
only contains white space(s)."; the root must start with `'\x7b'` or
`'['` (else "Except either an object or array at root."); after the
root, whitespace is skipped and anything but `'\0'` throws "Nothig
should follow the root object or array.". -/
def gParseCore (s : List Char) : Except Err JValue :=
  let s1 := skipWs s
  if peekC s1 = nulc then .error .wsOnly
  else if peekC s1 = lcurly then
    match gParseObject (4 * s.length + 8) s1 with
    | .error e => .error e
    | .ok (v, r) => if peekC (skipWs r) = nulc then .ok v else .error .trailing
  else if peekC s1 = '[' then
    match gParseArray (4 * s.length + 8) s1 with
    | .error e => .error e
    | .ok (v, r) => if peekC (skipWs r) = nulc then .ok v else .error .trailing
  else .error .rootNotContainer

/-- `generic_reader::parse` (`stream.hpp` lines 286-318): the body runs
inside `try { ... } catch (std::runtime_error& e)`; a caught exception
is reported to `std::cerr` and `false` is returned (`.ok none`), a
completed parse returns `true` with the root assigned (`.ok (some v)`).
Exceptions that do not derive from `std::runtime_error` — the
`std::invalid_argument` / `std::out_of_range` thrown by `std::stoll` /
`std::stod` in `parseNumber` — are not caught and leave `parse` as
exceptions (`.error e`). -/
def gParse (s : List Char) : Except Err (Option JValue) :=
  match gParseCore s with
  | .ok v => .ok (some v)
  | .error e => if e.isParsingError then .ok none else .error e

/-! ## The parser of `src/unnamed/part_002` (`Reader`)

This revision builds `Value` of `value.hpp` (so member insertion is
`value.hpp`'s `std::map::emplace`, `insertKeepFirst`) and its
stream-level `parse` (lines 177-191) dispatches every value type: it
skips whitespace and parses whatever value starts there, with no
root-type restriction, no emptiness check and no trailing-content
check, returning the value (there is no `try`/`catch` at this level, so
exceptions escape to the caller). -/

mutual

/-- `Reader::parse(Stream&)` of `part_002` (lines 177-191). -/
def r2Parse : Nat → List Char → Except Err (JValue × List Char)
  | 0, _ => .error .fuel
  | f + 1, s =>
    let s1 := skipWs s
    let c := peekC s1
    if c = 'n' then gParseNull s1
    else if c = 't' then gParseTrue s1
    else if c = 'f' then gParseFalse s1
    else if c = dquote then
      match gParseStringRaw s1 with
      | .ok (str, rest) => .ok (.vstr str, rest)
      | .error e => .error e
    else if c = lcurly then r2Object f s1
    else if c = '[' then r2Array f s1
    else gParseNumber s1

/-- `Reader::parseObject` of `part_002` (lines 199-237); the member
insertion `ret.insert(std::move(key), parse(s))` is `Value::insert` of
`value.hpp`, i.e. `std::map::emplace`, which keeps the first value of a
duplicated key (`insertKeepFirst`). -/
def r2Object : Nat → List Char → Except Err (JValue × List Char)
  | 0, _ => .error .fuel
  | f + 1, s =>
    let s1 := skipWs s.tail
    if peekC s1 = rcurly then .ok (.vobj [], s1.tail)
    else r2ObjLoop f [] s1

/-- The member loop of `Reader::parseObject` (`part_002` lines
212-234). -/
def r2ObjLoop : Nat → List (List Char × JValue) → List Char →
    Except Err (JValue × List Char)
  | 0, _, _ => .error .fuel
  | f + 1, acc, s =>
    if peekC s ≠ dquote then .error .memberNameNotString
    else
      match gParseStringRaw s with
      | .error e => .error e
      | .ok (k, s1) =>
        let s2 := skipWs s1
        if peekC s2 ≠ ':' then .error .colonExpected
        else
          match r2Parse f (skipWs s2.tail) with
          | .error e => .error e
          | .ok (v, s4) =>
            let acc2 := insertKeepFirst acc k v
            let s5 := skipWs s4
            if peekC s5 = ',' then r2ObjLoop f acc2 (skipWs s5.tail)
            else if peekC s5 = rcurly then .ok (.vobj acc2, s5.tail)
            else .error .commaOrCurlyExpected

/-- `Reader::parseArray` of `part_002` (lines 241-267). -/
def r2Array : Nat → List Char → Except Err (JValue × List Char)
  | 0, _ => .error .fuel
  | f + 1, s =>
    let s1 := skipWs s.tail
    if peekC s1 = ']' then .ok (.varr [], s1.tail)
    else r2ArrLoop f [] s1

/-- The element loop of `Reader::parseArray` (`part_002` lines
254-264). -/
def r2ArrLoop : Nat → List JValue → List Char → Except Err (JValue × List Char)
  | 0, _, _ => .error .fuel
  | f + 1, acc, s =>
    match r2Parse f s with
    | .error e => .error e
    | .ok (v, s1) =>
      let acc2 := acc ++ [v]
      let s2 := skipWs s1
      if peekC s2 = ',' then r2ArrLoop f acc2 (skipWs s2.tail)
      else if peekC s2 = ']' then .ok (.varr acc2, s2.tail)
      else .error .commaOrBracketExpected

end

/-- `Reader::parse(Stream&)` of `part_002` invoked at the top level
(as `Reader::parse(filename, root)` line 170 invokes it), with the
fuel bound of the model. -/
def r2ParseTop (s : List Char) : Except Err (JValue × List Char) :=
  r2Parse (4 * s.length + 8) s

/-! ## The `parseString` of `reader.hpp`

The older `generic_reader` revision in `reader.hpp` (lines 329-365) has
a different string scan: `case '\\':` and `case 'u':` merely `break`
out of the `switch` without consuming the character, so the
`while (true)` loop peeks the same character again, forever. -/

/-- The scan loop of `reader.hpp`'s `parseString` (lines 345-362),
starting after the opening quote: a backslash or a `'u'` leaves the
stream untouched and re-enters the loop (the `break` only leaves the
`switch`); `'"'` ends the token; `'\0'` throws "Lacks ending quation
before the the end of string"; other characters are consumed. -/
def rdPSGo : Nat → List Char → List Char → Except Err (List Char × List Char)
  | 0, _, _ => .error .fuel
  | f + 1, s, acc =>
    let c := peekC s
    if c = bslash then rdPSGo f s acc
    else if c = 'u' then rdPSGo f s acc
    else if c = dquote then .ok (acc.reverse, s.tail)
    else if c = nulc then .error .unterminatedString
    else rdPSGo f s.tail (c :: acc)

/-- `generic_reader::parseString` of `reader.hpp` (lines 329-365), with
fuel exceeding the number of characters a terminating run could
consume. -/
def rdParseString (s : List Char) : Except Err (List Char × List Char) :=
  rdPSGo (s.length + 1) s.tail []

/-- The scan loop makes no progress from this state: whatever the fuel,
it runs out.  This is the model's rendering of the C++ infinite
loop. -/
def rdPSDiverges (s : List Char) : Prop :=
  ∀ f acc, rdPSGo f s acc = .error .fuel

/-! ## Move semantics -/

/-- `generic_value::clear` (`part_000` lines 369-395), identical in
`value.hpp` (lines 339-367) and `jsoncxx.hpp` (lines 418-446): only for
the container types Array/Object/String is the payload released and the
tag reset to `NullType`; a Number, True, False or Null value is left
untouched. -/
def jxClear : JValue → JValue
  | .varr _ => .vnull
  | .vobj _ => .vnull
  | .vstr _ => .vnull
  | x => x

/-- The tags for which the move assignment of `jsoncxx.hpp` (lines
540-560) / `part_000` (lines 486-506) swaps the payload union: the
`switch` lists Object, Array, String and Number. -/
def swapsPayload : JValue → Bool
  | .varr _ => true
  | .vobj _ => true
  | .vstr _ => true
  | .vnum _ => true
  | _ => false

/-- The state of a C++ value object after a move: either a coherent
value, or a `NumberType` tag sitting over the payload of a source that
carried no payload (Null/True/False) — an indeterminate number. -/
inductive CVal
  | coh (v : JValue)
  | junkNumber

/-- Move assignment of `jsoncxx.hpp` (lines 540-560) and `part_000`
(lines 486-506), for distinct objects (`this != &rhs` — a self move
leaves the value unchanged): `clear()` the destination (which resets
only container tags, `jxClear`), swap the tags, and swap the payload
union only when the destination's new tag (the source's old tag) is
Object/Array/String/Number.  The first component is the destination's
new state, the second the source's: the source receives the cleared
destination's old tag and, when the payload was swapped, its payload —
which is `Null` only if the destination was `Null` or a container. -/
def jxMoveAssign (dst src : JValue) : JValue × CVal :=
  let dstC := jxClear dst
  if swapsPayload src then (src, .coh dstC)
  else
    (src,
      match dstC with
      | .vnum _ => CVal.junkNumber
      | x => CVal.coh x)

/-- Move assignment of `value.hpp` (lines 255-264), for distinct
objects: `clear()`, copy the source's tag, swap the payload union, and
set the source's tag to `NullType` explicitly — so the source is always
left as `Null` (its swapped-in old payload sits under the `Null` tag
and is unreachable), and the destination holds the source's tag and
payload. -/
def vMoveAssign (_dst src : JValue) : JValue × JValue :=
  (src, .vnull)

/-- Move construction (`part_000` lines 230-236, `value.hpp` lines
248-252, `jsoncxx.hpp` lines 279-285): the fresh object takes the
source's tag and payload and the source's tag is set to `NullType` in
every revision. -/
def jxMoveCtor (src : JValue) : JValue × JValue :=
  (src, .vnull)

/-! ## The round-trip class

`goodV` delimits the class of value trees for which serialization with
the writer followed by `generic_reader::parse` reproduces the tree:
strings (and member names) contain none of `'"'`, `'\'`, `'\0'`;
numbers are `NaturalNumber` payloads within `long long` range; arrays
and objects are non-empty (the writer mishandles empty containers, see
`serW`); object member names are distinct (a duplicated name collapses
on re-parsing). -/

/-- A string character the scan of `parseString` passes through
unchanged. -/
def isGoodChar (c : Char) : Bool :=
  !(c = dquote) && !(c = bslash) && !(c = nulc)

/-- String payloads that re-parse verbatim. -/
def goodStr (s : List Char) : Bool := s.all isGoodChar

mutual

/-- Membership in the round-trip class (see the section comment). -/
def goodV : JValue → Bool
  | .vnull => true
  | .vfalse => true
  | .vtrue => true
  | .vnum (.hn n) => inInt64 n
  | .vnum (.hr _) => false
  | .vstr s => goodStr s
  | .varr es => !es.isEmpty && goodElems es
  | .vobj ms => !ms.isEmpty && goodMembers ms

/-- All elements in the round-trip class. -/
def goodElems : List JValue → Bool
  | [] => true
  | e :: es => goodV e && goodElems es

/-- All member names good and distinct, all member values in the
class. -/
def goodMembers : List (List Char × JValue) → Bool
  | [] => true
  | (k, v) :: ms =>
      goodStr k && (lookupK ms k).isNone && goodV v && goodMembers ms

end

mutual

/-- Fuel sufficient for `gParseValue` to parse the serialization of a
value (each recursion step of the parser model consumes one unit). -/
def needV : JValue → Nat
  | .varr es => 2 + needL es
  | .vobj ms => 2 + needO ms
  | _ => 1

/-- Fuel sufficient for `gArrLoop` over the serialized elements. -/
def needL : List JValue → Nat
  | [] => 1
  | e :: es => 1 + max (needV e) (needL es)

/-- Fuel sufficient for `gObjLoop` over the serialized members. -/
def needO : List (List Char × JValue) → Nat
  | [] => 1
  | (_, v) :: ms => 1 + max (needV v) (needO ms)

end

/-- Whether the root is an array or object (the only roots
`generic_reader::parse` accepts). -/
def rootIsContainer : JValue → Bool
  | .varr _ => true
  | .vobj _ => true
  | _ => false

/-- Structural induction for the nested inductive `JValue`, with the
inductive hypothesis available for every array element and every object
member value. -/
theorem jvInd (P : JValue → Prop)
    (h0 : P .vnull) (h1 : P .vfalse) (h2 : P .vtrue)
    (h3 : ∀ h, P (.vnum h)) (h4 : ∀ s, P (.vstr s))
    (h5 : ∀ es, (∀ e ∈ es, P e) → P (.varr es))
    (h6 : ∀ ms, (∀ m ∈ ms, P m.2) → P (.vobj ms)) :
    ∀ v, P v := fun v =>
  match v with
  | .vnull => h0
  | .vfalse => h1
  | .vtrue => h2
  | .vnum h => h3 h
  | .vstr s => h4 s
  | .varr es => h5 es (fun e _ => jvInd P h0 h1 h2 h3 h4 h5 h6 e)
  | .vobj ms => h6 ms (fun m _ => jvInd P h0 h1 h2 h3 h4 h5 h6 m.2)
  termination_by v => sizeOf v
  decreasing_by
  · rename_i he
    have := List.sizeOf_lt_of_mem he
    simp only [JValue.varr.sizeOf_spec]
    omega
  · rename_i m hm
    have h1 := List.sizeOf_lt_of_mem hm
    have h2 : sizeOf m.2 < sizeOf m := by
      obtain ⟨a, b⟩ := m
      simp only [Prod.mk.sizeOf_spec]
      omega
    simp only [JValue.vobj.sizeOf_spec]
    omega

/-! ## Basic lemmas -/

theorem peekC_nil : peekC [] = nulc := rfl

theorem peekC_cons (c : Char) (t : List Char) : peekC (c :: t) = c := rfl

theorem skipWs_cons_false {c : Char} (h : isWsChar c = false) (t : List Char) :
    skipWs (c :: t) = c :: t := by
  simp [skipWs, h]

theorem skipWs_nil_of_all {s : List Char} (h : s.all isWsChar = true) :
    skipWs s = [] := by
  induction s with
  | nil => rfl
  | cons c t ih =>
    simp only [List.all_cons, Bool.and_eq_true] at h
    simp [skipWs, h.1, ih h.2]

theorem isDigitC_iff {c : Char} :
    isDigitC c = true ↔ 48 ≤ c.toNat ∧ c.toNat ≤ 57 := by
  simp [isDigitC]

/-- The character classes a decimal digit does not belong to. -/
theorem digit_facts {c : Char} (h : isDigitC c = true) :
    isWsChar c = false ∧ isCSpace c = false ∧ isGoodChar c = true ∧
    isScanChar c = true ∧
    c ≠ dquote ∧ c ≠ bslash ∧ c ≠ nulc ∧ c ≠ lcurly ∧ c ≠ rcurly ∧
    c ≠ '[' ∧ c ≠ ']' ∧ c ≠ ',' ∧ c ≠ ':' ∧
    c ≠ 'n' ∧ c ≠ 't' ∧ c ≠ 'f' ∧
    c ≠ '.' ∧ c ≠ '-' ∧ c ≠ '+' ∧ c ≠ 'e' ∧ c ≠ 'E' := by
  have hb := isDigitC_iff.mp h
  have hne : ∀ (d : Char) (k : Nat), d.toNat = k → (k < 48 ∨ 57 < k) →
      c ≠ d := by
    intro d k hk hout he
    rw [he, hk] at hb
    omega
  refine ⟨?_, ?_, ?_, ?_, ?_, ?_, ?_, ?_, ?_, ?_, ?_, ?_, ?_, ?_, ?_, ?_,
    ?_, ?_, ?_, ?_, ?_⟩
  · simp only [isWsChar, Bool.or_eq_false_iff, decide_eq_false_iff_not]
    exact ⟨⟨⟨hne _ 32 (by decide) (by omega), hne _ 10 (by decide) (by omega)⟩,
      hne _ 13 (by decide) (by omega)⟩, hne _ 9 (by decide) (by omega)⟩
  · simp only [isCSpace, Bool.or_eq_false_iff, decide_eq_false_iff_not]
    exact ⟨⟨⟨⟨⟨hne _ 32 (by decide) (by omega), hne _ 9 (by decide) (by omega)⟩,
      hne _ 10 (by decide) (by omega)⟩, hne _ 13 (by decide) (by omega)⟩,
      hne _ 11 (by decide) (by omega)⟩, hne _ 12 (by decide) (by omega)⟩
  · simp only [isGoodChar, Bool.and_eq_true, Bool.not_eq_true',
      decide_eq_false_iff_not]
    exact ⟨⟨hne _ 34 (by decide) (by omega), hne _ 92 (by decide) (by omega)⟩,
      hne _ 0 (by decide) (by omega)⟩
  · simp [isScanChar, h]
  · exact hne _ 34 (by decide) (by omega)
  · exact hne _ 92 (by decide) (by omega)
  · exact hne _ 0 (by decide) (by omega)
  · exact hne _ 123 (by decide) (by omega)
  · exact hne _ 125 (by decide) (by omega)
  · exact hne _ 91 (by decide) (by omega)
  · exact hne _ 93 (by decide) (by omega)
  · exact hne _ 44 (by decide) (by omega)
  · exact hne _ 58 (by decide) (by omega)
  · exact hne _ 110 (by decide) (by omega)
  · exact hne _ 116 (by decide) (by omega)
  · exact hne _ 102 (by decide) (by omega)
  · exact hne _ 46 (by decide) (by omega)
  · exact hne _ 45 (by decide) (by omega)
  · exact hne _ 43 (by decide) (by omega)
  · exact hne _ 101 (by decide) (by omega)
  · exact hne _ 69 (by decide) (by omega)

/-! ## Decimal digits lemmas -/

theorem digitChar_toNat {d : Nat} (h : d < 10) :
    (digitChar d).toNat = 48 + d := by
  interval_cases d <;> rfl

theorem isDigitC_digitChar {d : Nat} (h : d < 10) :
    isDigitC (digitChar d) = true := by
  rw [isDigitC_iff, digitChar_toNat h]
  omega

theorem natToCharsAux_eq (n : Nat) :
    ∀ acc, natToCharsAux n acc = natToChars n ++ acc := by
  induction n using Nat.strong_induction_on with
  | _ n ih =>
    intro acc
    by_cases h : n < 10
    · conv_lhs => rw [natToCharsAux]
      conv_rhs => rw [natToChars, natToCharsAux]
      simp [h]
    · conv_lhs => rw [natToCharsAux]
      conv_rhs => rw [natToChars, natToCharsAux]
      rw [if_neg h, if_neg h]
      have hlt : n / 10 < n := Nat.div_lt_self (by omega) (by omega)
      rw [ih _ hlt (digitChar (n % 10) :: acc), ih _ hlt [digitChar (n % 10)]]
      simp

theorem natToChars_split {n : Nat} (h : ¬ n < 10) :
    natToChars n = natToChars (n / 10) ++ [digitChar (n % 10)] := by
  rw [natToChars, natToCharsAux, if_neg h, natToCharsAux_eq]

theorem natToChars_small {n : Nat} (h : n < 10) :
    natToChars n = [digitChar n] := by
  rw [natToChars, natToCharsAux]
  simp [h]

theorem natToChars_ne_nil (n : Nat) : natToChars n ≠ [] := by
  by_cases h : n < 10
  · rw [natToChars_small h]
    simp
  · rw [natToChars_split h]
    simp

theorem natToChars_all_digit (n : Nat) :
    (natToChars n).all isDigitC = true := by
  induction n using Nat.strong_induction_on with
  | _ n ih =>
    by_cases h : n < 10
    · rw [natToChars_small h]
      simp [isDigitC_digitChar h]
    · rw [natToChars_split h]
      have hlt : n / 10 < n := Nat.div_lt_self (by omega) (by omega)
      simp [List.all_append, ih _ hlt,
        isDigitC_digitChar (Nat.mod_lt n (by omega))]

theorem valOfDigits_snoc (l : List Char) (c : Char) :
    valOfDigits (l ++ [c]) = 10 * valOfDigits l + (c.toNat - 48) := by
  simp [valOfDigits, List.foldl_append]

theorem valOfDigits_natToChars (n : Nat) :
    valOfDigits (natToChars n) = n := by
  induction n using Nat.strong_induction_on with
  | _ n ih =>
    by_cases h : n < 10
    · rw [natToChars_small h]
      show valOfDigits ([] ++ [digitChar n]) = n
      rw [valOfDigits_snoc, digitChar_toNat h]
      simp [valOfDigits]
    · rw [natToChars_split h, valOfDigits_snoc,
        ih _ (Nat.div_lt_self (by omega) (by omega)),
        digitChar_toNat (Nat.mod_lt n (by omega))]
      omega

/-! ## takeWhile / dropWhile / scan lemmas -/

theorem takeWhile_all_stop {p : Char → Bool} :
    ∀ (l rest : List Char), l.all p = true →
      (∀ c, rest.head? = some c → p c = false) →
      (l ++ rest).takeWhile p = l := by
  intro l
  induction l with
  | nil =>
    intro rest _ hr
    cases rest with
    | nil => rfl
    | cons c t => simp [List.takeWhile_cons, hr c rfl]
  | cons c t ih =>
    intro rest hall hr
    simp only [List.all_cons, Bool.and_eq_true] at hall
    simp [List.takeWhile_cons, hall.1, ih rest hall.2 hr]

theorem dropWhile_cons_false {p : Char → Bool} {c : Char}
    (h : p c = false) (t : List Char) :
    (c :: t).dropWhile p = c :: t := by
  simp [List.dropWhile_cons, h]

theorem takeWhile_all {p : Char → Bool} {l : List Char}
    (h : l.all p = true) : l.takeWhile p = l := by
  have := takeWhile_all_stop l [] h (by intro c hc; simp at hc)
  simpa using this

theorem natToChars_head_digit (n : Nat) :
    ∃ c t, natToChars n = c :: t ∧ isDigitC c = true := by
  rcases hn : natToChars n with _ | ⟨c, t⟩
  · exact absurd hn (natToChars_ne_nil n)
  · refine ⟨c, t, rfl, ?_⟩
    have := natToChars_all_digit n
    rw [hn] at this
    simp only [List.all_cons, Bool.and_eq_true] at this
    exact this.1

theorem scanNum_append :
    ∀ (tok rest : List Char), tok.all isScanChar = true →
      isScanChar (peekC rest) = false →
      scanNum (tok ++ rest) = (tok, rest) := by
  intro tok
  induction tok with
  | nil =>
    intro rest _ hr
    cases rest with
    | nil => rfl
    | cons c t =>
      rw [peekC_cons] at hr
      simp [scanNum, hr]
  | cons c t ih =>
    intro rest hall hr
    simp only [List.all_cons, Bool.and_eq_true] at hall
    simp [scanNum, hall.1, ih rest hall.2 hr]

/-! ## `parseNumber` on serialized integers -/

theorem int64_range {n : Int} (h : inInt64 n = true) :
    int64Min ≤ n ∧ n ≤ int64Max := by
  simpa [inInt64] using h

theorem stoll_natToChars_pos (m : Nat) :
    stollModel (natToChars m) = .ok (m : Int) ∨
      ((2 : Int) ^ 63 - 1 < (m : Int) ∧
        stollModel (natToChars m) = .error .outOfRange) := by
  obtain ⟨c, t, hct, hcd⟩ := natToChars_head_digit m
  obtain ⟨hws, hsp, hgood, hscan, hdq, hbs, hnu, hlc, hrc, hlb, hrb, hcm,
    hcl, hn, ht, hfc, hdot, hminus, hplus, he, hE⟩ := digit_facts hcd
  have hor : ¬ (c = '-' ∨ c = '+') := by
    rintro (h1 | h2)
    · exact hminus h1
    · exact hplus h2
  have hds : (natToChars m).takeWhile isDigitC = natToChars m :=
    takeWhile_all (natToChars_all_digit m)
  have hdrop : (natToChars m).dropWhile isCSpace = natToChars m := by
    rw [hct]
    exact dropWhile_cons_false hsp t
  have hpk : peekC (natToChars m) = c := by rw [hct, peekC_cons]
  simp only [stollModel, hdrop, hpk]
  rw [if_neg hminus, if_neg hor]
  simp only [hds, valOfDigits_natToChars, one_mul]
  rw [if_neg (natToChars_ne_nil m)]
  by_cases hbig : (2 : Int) ^ 63 - 1 < (m : Int)
  · right
    refine ⟨hbig, ?_⟩
    rw [if_pos]
    simp only [Bool.or_eq_true, decide_eq_true_iff, int64Min, int64Max]
    right
    exact hbig
  · left
    rw [if_neg]
    simp only [Bool.or_eq_true, decide_eq_true_iff, not_or, not_lt,
      int64Min, int64Max]
    constructor
    · have : (0 : Int) ≤ (m : Int) := Int.ofNat_nonneg m
      omega
    · omega

theorem stoll_intToChars {n : Int} (h : inInt64 n = true) :
    stollModel (intToChars n) = .ok n := by
  have hr := int64_range h
  by_cases hneg : n < 0
  · rw [show intToChars n = '-' :: natToChars (-n).toNat by
      simp [intToChars, hneg]]
    have hds : (natToChars (-n).toNat).takeWhile isDigitC =
        natToChars (-n).toNat := takeWhile_all (natToChars_all_digit _)
    simp only [stollModel,
      dropWhile_cons_false (show isCSpace '-' = false by decide),
      peekC_cons, List.tail_cons]
    simp only [true_or, ite_true]
    simp only [hds, valOfDigits_natToChars]
    rw [if_neg (natToChars_ne_nil _)]
    have hv : (-1 : Int) * ((-n).toNat : Int) = n := by
      rw [Int.toNat_of_nonneg (by omega)]
      ring
    rw [hv, if_neg]
    simp only [Bool.or_eq_true, decide_eq_true_iff, not_or, not_lt]
    exact ⟨hr.1, hr.2⟩
  · rw [show intToChars n = natToChars n.toNat by simp [intToChars, hneg]]
    rcases stoll_natToChars_pos n.toNat with h1 | ⟨h2, _⟩
    · rw [h1, Int.toNat_of_nonneg (by omega)]
    · exfalso
      rw [Int.toNat_of_nonneg (by omega)] at h2
      have hm : int64Max = 2 ^ 63 - 1 := rfl
      rw [hm] at hr
      omega

theorem intToChars_all_scan (n : Int) :
    (intToChars n).all isScanChar = true := by
  have hd : ∀ l : List Char, l.all isDigitC = true →
      l.all isScanChar = true := by
    intro l hl
    simp only [List.all_eq_true] at hl ⊢
    intro c hc
    exact (digit_facts (hl c hc)).2.2.2.1
  by_cases hneg : n < 0
  · simp only [intToChars, if_pos hneg, List.all_cons, Bool.and_eq_true]
    exact ⟨by decide, hd _ (natToChars_all_digit _)⟩
  · simp only [intToChars, if_neg hneg]
    exact hd _ (natToChars_all_digit _)

theorem dot_notin_natToChars (m : Nat) : '.' ∉ natToChars m := by
  intro hmem
  have hall := natToChars_all_digit m
  simp only [List.all_eq_true] at hall
  exact absurd (hall '.' hmem) (by decide)

theorem dot_notin_intToChars (n : Int) : '.' ∉ intToChars n := by
  intro hmem
  by_cases hneg : n < 0
  · rw [intToChars, if_pos hneg] at hmem
    rcases List.mem_cons.mp hmem with h | h
    · exact absurd h (by decide)
    · exact dot_notin_natToChars _ h
  · rw [intToChars, if_neg hneg] at hmem
    exact dot_notin_natToChars _ hmem

theorem gParseNumber_int {n : Int} (h : inInt64 n = true) (rest : List Char)
    (hrest : isScanChar (peekC rest) = false) :
    gParseNumber (intToChars n ++ rest) = .ok (.vnum (.hn n), rest) := by
  have hscan := scanNum_append (intToChars n) rest (intToChars_all_scan n)
    hrest
  simp only [gParseNumber, hscan]
  rw [if_neg (dot_notin_intToChars n), stoll_intToChars h]

/-! ## String scan lemmas -/

theorem isGoodChar_split {c : Char} (h : isGoodChar c = true) :
    c ≠ dquote ∧ c ≠ bslash ∧ c ≠ nulc := by
  simp only [isGoodChar, Bool.and_eq_true, Bool.not_eq_true',
    decide_eq_false_iff_not] at h
  exact ⟨h.1.1, h.1.2, h.2⟩

theorem goString_ok :
    ∀ (a rest acc : List Char), a.all isGoodChar = true →
      goString (a ++ dquote :: rest) acc = .ok (acc.reverse ++ a, rest) := by
  intro a
  induction a with
  | nil =>
    intro rest acc _
    simp [goString]
  | cons c t ih =>
    intro rest acc hall
    simp only [List.all_cons, Bool.and_eq_true] at hall
    obtain ⟨h1, h2, h3⟩ := isGoodChar_split hall.1
    simp only [List.cons_append, goString, List.append_eq]
    rw [if_neg h1, if_neg h3, if_neg h2, ih rest (c :: acc) hall.2]
    simp

theorem gParseStringRaw_ok {a : List Char} (rest : List Char)
    (h : a.all isGoodChar = true) :
    gParseStringRaw (dquote :: (a ++ dquote :: rest)) = .ok (a, rest) := by
  rw [gParseStringRaw, List.tail_cons, goString_ok a rest [] h]
  rfl

theorem goString_unterminated :
    ∀ (a acc : List Char), (∀ c ∈ a, c ≠ dquote ∧ c ≠ bslash) →
      goString a acc = .error .unterminatedString := by
  intro a
  induction a with
  | nil => intro acc _; rfl
  | cons c t ih =>
    intro acc hall
    have hc := hall c (List.mem_cons_self c t)
    simp only [goString]
    rw [if_neg hc.1, if_neg hc.2]
    by_cases hn : c = nulc
    · rw [if_pos hn]
    · rw [if_neg hn]
      exact ih (c :: acc) (fun x hx => hall x (List.mem_cons_of_mem c hx))

theorem goString_escape :
    ∀ (a rest acc : List Char), a.all isGoodChar = true →
      goString (a ++ bslash :: rest) acc = .error .unsupportedEscape := by
  intro a
  induction a with
  | nil =>
    intro rest acc _
    simp only [List.nil_append, goString]
    rw [if_neg (show ¬ (bslash = dquote) by decide),
      if_neg (show ¬ (bslash = nulc) by decide)]
    simp
  | cons c t ih =>
    intro rest acc hall
    simp only [List.all_cons, Bool.and_eq_true] at hall
    obtain ⟨h1, h2, h3⟩ := isGoodChar_split hall.1
    simp only [List.cons_append, goString, List.append_eq]
    rw [if_neg h1, if_neg h3, if_neg h2, ih rest (c :: acc) hall.2]

/-! ## Serializer inversion lemmas -/

theorem serWElems_nil_inv {ot : List Char}
    (h : serWElems [] = some ot) : ot = [] := by
  simpa [serWElems] using h.symm

theorem serW_arr_inv {e : JValue} {es : List JValue} {out : List Char}
    (h : serW (.varr (e :: es)) = some out) :
    ∃ oe ot, serW e = some oe ∧ serWElems es = some ot ∧
      out = '[' :: (oe ++ ot ++ [']']) := by
  cases hse : serW e with
  | none => simp [serW, hse] at h
  | some oe =>
    cases hst : serWElems es with
    | none => simp [serW, hse, hst] at h
    | some ot =>
      refine ⟨oe, ot, rfl, rfl, ?_⟩
      simp only [serW, hse, hst, Option.bind_eq_bind, Option.some_bind] at h
      exact (Option.some.inj h).symm

theorem serWMember_inv {k : List Char} {v : JValue} {om : List Char}
    (h : serWMember (k, v) = some om) :
    ∃ ov, serW v = some ov ∧ om = dquote :: k ++ dquote :: ':' :: ov := by
  cases hsv : serW v with
  | none => simp [serWMember, hsv] at h
  | some ov =>
    refine ⟨ov, rfl, ?_⟩
    simp only [serWMember, hsv, Option.bind_eq_bind, Option.some_bind] at h
    exact (Option.some.inj h).symm

theorem serWMembers_nil_inv {ot : List Char}
    (h : serWMembers [] = some ot) : ot = [] := by
  simpa [serWMembers] using h.symm

theorem serW_obj_inv {m : List Char × JValue}
    {ms : List (List Char × JValue)} {out : List Char}
    (h : serW (.vobj (m :: ms)) = some out) :
    ∃ om ot, serWMember m = some om ∧ serWMembers ms = some ot ∧
      out = lcurly :: (om ++ ot ++ [rcurly]) := by
  cases hsm : serWMember m with
  | none => simp [serW, hsm] at h
  | some om =>
    cases hst : serWMembers ms with
    | none => simp [serW, hsm, hst] at h
    | some ot =>
      refine ⟨om, ot, rfl, rfl, ?_⟩
      simp only [serW, hsm, hst, Option.bind_eq_bind, Option.some_bind] at h
      exact (Option.some.inj h).symm

theorem serWElems_cons_inv {e : JValue} {es : List JValue} {ot : List Char}
    (h : serWElems (e :: es) = some ot) :
    ∃ oe ot2, serW e = some oe ∧ serWElems es = some ot2 ∧
      ot = ',' :: (oe ++ ot2) := by
  cases hse : serW e with
  | none => simp [serWElems, hse] at h
  | some oe =>
    cases hst : serWElems es with
    | none => simp [serWElems, hse, hst] at h
    | some ot2 =>
      refine ⟨oe, ot2, rfl, rfl, ?_⟩
      simp only [serWElems, hse, hst, Option.bind_eq_bind, Option.some_bind]
        at h
      exact (Option.some.inj h).symm

theorem serWMembers_cons_inv {m : List Char × JValue}
    {ms : List (List Char × JValue)} {ot : List Char}
    (h : serWMembers (m :: ms) = some ot) :
    ∃ om ot2, serWMember m = some om ∧ serWMembers ms = some ot2 ∧
      ot = ',' :: (om ++ ot2) := by
  cases hsm : serWMember m with
  | none => simp [serWMembers, hsm] at h
  | some om =>
    cases hst : serWMembers ms with
    | none => simp [serWMembers, hsm, hst] at h
    | some ot2 =>
      refine ⟨om, ot2, rfl, rfl, ?_⟩
      simp only [serWMembers, hsm, hst, Option.bind_eq_bind, Option.some_bind]
        at h
      exact (Option.some.inj h).symm

/-- The first character of a serialized good value: never whitespace and
never one of the delimiters the parser's loops look for. -/
theorem serW_head {v : JValue} {out : List Char} (hg : goodV v = true)
    (hs : serW v = some out) :
    ∃ c t, out = c :: t ∧ isWsChar c = false ∧ c ≠ ']' ∧ c ≠ rcurly ∧
      c ≠ ',' ∧ c ≠ nulc := by
  cases v with
  | vnull =>
    refine ⟨'n', _, (Option.some.inj hs).symm, by decide, by decide,
      ?_, ?_, ?_⟩ <;> decide
  | vfalse =>
    refine ⟨'f', _, (Option.some.inj hs).symm, by decide, by decide,
      ?_, ?_, ?_⟩ <;> decide
  | vtrue =>
    refine ⟨'t', _, (Option.some.inj hs).symm, by decide, by decide,
      ?_, ?_, ?_⟩ <;> decide
  | vnum h =>
    cases h with
    | hr r => simp [goodV] at hg
    | hn n =>
      have hout : out = intToChars n := by
        simpa [serW, serNum] using hs.symm
      by_cases hneg : n < 0
      · refine ⟨'-', natToChars (-n).toNat, ?_, by decide, by decide,
          by decide, by decide, by decide⟩
        rw [hout]
        simp [intToChars, hneg]
      · obtain ⟨c, t, hct, hcd⟩ := natToChars_head_digit n.toNat
        have hf := digit_facts hcd
        refine ⟨c, t, ?_, hf.1, hf.2.2.2.2.2.2.2.2.2.2.1,
          hf.2.2.2.2.2.2.2.2.1, hf.2.2.2.2.2.2.2.2.2.2.2.1,
          hf.2.2.2.2.2.2.1⟩
        rw [hout]
        simp [intToChars, hneg, hct]
  | vstr s =>
    refine ⟨dquote, _, (Option.some.inj hs).symm, by decide, by decide,
      ?_, ?_, ?_⟩ <;> decide
  | varr es =>
    cases es with
    | nil => simp [serW] at hs
    | cons e es =>
      obtain ⟨oe, ot, _, _, rfl⟩ := serW_arr_inv hs
      exact ⟨'[', _, rfl, by decide, by decide, by decide, by decide,
        by decide⟩
  | vobj ms =>
    cases ms with
    | nil => simp [serW] at hs
    | cons m ms =>
      obtain ⟨om, ot, _, _, rfl⟩ := serW_obj_inv hs
      exact ⟨lcurly, _, rfl, by decide, by decide, by decide, by decide,
        by decide⟩

/-! ## Lookup and insertion lemmas -/

theorem lookupK_none_iff {l : List (List Char × JValue)} {k : List Char} :
    lookupK l k = none ↔ ∀ p ∈ l, p.1 ≠ k := by
  induction l with
  | nil => simp [lookupK]
  | cons p t ih =>
    obtain ⟨k', v'⟩ := p
    rw [lookupK]
    by_cases hk : k' = k
    · rw [if_pos hk]
      constructor
      · intro h
        exact absurd h (by simp)
      · intro h
        exact absurd hk (h (k', v') (List.mem_cons_self _ _))
    · rw [if_neg hk, ih]
      constructor
      · intro h p hp
        rcases List.mem_cons.mp hp with rfl | hp2
        · exact hk
        · exact h p hp2
      · intro h p hp
        exact h p (List.mem_cons_of_mem _ hp)

theorem insertOverwrite_fresh {acc : List (List Char × JValue)}
    {k : List Char} (v : JValue) (h : lookupK acc k = none) :
    insertOverwrite acc k v = acc ++ [(k, v)] := by
  induction acc with
  | nil => rfl
  | cons p t ih =>
    obtain ⟨k', v'⟩ := p
    rw [lookupK] at h
    by_cases hk : k' = k
    · rw [if_pos hk] at h
      exact absurd h (by simp)
    · rw [if_neg hk] at h
      simp only [insertOverwrite, if_neg hk, List.cons_append,
        List.cons.injEq, true_and]
      exact ih h

theorem lookupK_append_none {acc : List (List Char × JValue)}
    {k0 k : List Char} {v0 : JValue} (h1 : lookupK acc k = none)
    (h2 : k0 ≠ k) : lookupK (acc ++ [(k0, v0)]) k = none := by
  induction acc with
  | nil => simp [lookupK, h2]
  | cons p t ih =>
    obtain ⟨k', v'⟩ := p
    rw [lookupK] at h1
    by_cases hk : k' = k
    · rw [if_pos hk] at h1
      exact absurd h1 (by simp)
    · rw [if_neg hk] at h1
      simp only [List.cons_append, lookupK, if_neg hk]
      exact ih h1

theorem lookupK_insertOverwrite (o : List (List Char × JValue))
    (k : List Char) (v : JValue) :
    lookupK (insertOverwrite o k v) k = some v := by
  induction o with
  | nil => simp [insertOverwrite, lookupK]
  | cons p t ih =>
    obtain ⟨k', v'⟩ := p
    by_cases hk : k' = k
    · simp [insertOverwrite, hk, lookupK]
    · simp only [insertOverwrite, if_neg hk]
      rw [lookupK, if_neg hk]
      exact ih

/-! ## Dispatch lemmas for `gParseValue` -/

theorem gParseValue_null (f : Nat) (s : List Char) (h : peekC s = 'n') :
    gParseValue (f + 1) s = gParseNull s := by
  simp [gParseValue, h]

theorem gParseValue_true (f : Nat) (s : List Char) (h : peekC s = 't') :
    gParseValue (f + 1) s = gParseTrue s := by
  simp [gParseValue, h]

theorem gParseValue_false (f : Nat) (s : List Char) (h : peekC s = 'f') :
    gParseValue (f + 1) s = gParseFalse s := by
  simp [gParseValue, h]

theorem gParseValue_string (f : Nat) (s : List Char) (h : peekC s = dquote) :
    gParseValue (f + 1) s =
      match gParseStringRaw s with
      | .ok (str, rest) => .ok (.vstr str, rest)
      | .error e => .error e := by
  simp only [gParseValue, h]
  rw [if_neg (by decide), if_neg (by decide), if_neg (by decide)]
  simp

theorem gParseValue_obj (f : Nat) (s : List Char) (h : peekC s = lcurly) :
    gParseValue (f + 1) s = gParseObject f s := by
  simp only [gParseValue, h]
  rw [if_neg (by decide), if_neg (by decide), if_neg (by decide),
    if_neg (by decide)]
  simp

theorem gParseValue_arr (f : Nat) (s : List Char) (h : peekC s = '[') :
    gParseValue (f + 1) s = gParseArray f s := by
  simp only [gParseValue, h]
  rw [if_neg (show ¬ (('[' : Char) = 'n') by decide),
    if_neg (show ¬ (('[' : Char) = 't') by decide),
    if_neg (show ¬ (('[' : Char) = 'f') by decide),
    if_neg (show ¬ (('[' : Char) = dquote) by decide),
    if_neg (show ¬ (('[' : Char) = lcurly) by decide)]
  simp

theorem gParseValue_default (f : Nat) (s : List Char)
    (h1 : peekC s ≠ 'n') (h2 : peekC s ≠ 't') (h3 : peekC s ≠ 'f')
    (h4 : peekC s ≠ dquote) (h5 : peekC s ≠ lcurly) (h6 : peekC s ≠ '[') :
    gParseValue (f + 1) s = gParseNumber s := by
  simp [gParseValue, h1, h2, h3, h4, h5, h6]

/-! ## Round-trip: parsing a serialized tree -/

/-- The statement proved below for every good value by structural
induction: parsing its serialization, followed by any text whose first
character cannot extend a numeric token, consumes exactly the
serialization and yields the value back. -/
def RTP (v : JValue) : Prop :=
  ∀ (out : List Char) (f : Nat) (rest : List Char), goodV v = true →
    serW v = some out → needV v ≤ f →
    ((∃ h, v = JValue.vnum h) → isScanChar (peekC rest) = false) →
    gParseValue f (out ++ rest) = .ok (v, rest)

theorem rtArrLoop (es : List JValue) :
    ∀ e : JValue, RTP e → (∀ x ∈ es, RTP x) →
      goodV e = true → goodElems es = true →
      ∀ oe ot : List Char, serW e = some oe → serWElems es = some ot →
      ∀ f : Nat, needL (e :: es) ≤ f →
      ∀ (acc : List JValue) (rest : List Char),
        gArrLoop f acc (oe ++ ot ++ (']' :: rest)) =
          .ok (.varr (acc ++ e :: es), rest) := by
  induction es with
  | nil =>
    intro e he _ hge _ oe ot hsoe hsot f hf acc rest
    obtain rfl := serWElems_nil_inv hsot
    cases f with
    | zero => simp [needL] at hf
    | succ f1 =>
      have hm : max (needV e) (needL ([] : List JValue)) ≤ f1 := by
        have h0 : 1 + max (needV e) (needL ([] : List JValue)) ≤ f1 + 1 := by
          simpa [needL] using hf
        omega
      have hne : needV e ≤ f1 := le_trans (Nat.le_max_left _ _) hm
      simp only [List.append_nil, gArrLoop]
      rw [he oe f1 (']' :: rest) hge hsoe hne
        (fun _ => by rw [peekC_cons]; decide)]
      simp only [skipWs_cons_false (show isWsChar ']' = false by decide),
        peekC_cons]
      rw [if_neg (show ¬ ((']' : Char) = ',') by decide)]
      simp
  | cons e2 es2 ih =>
    intro e he hes hge hges oe ot hsoe hsot f hf acc rest
    obtain ⟨oe2, ot2, hsoe2, hsot2, rfl⟩ := serWElems_cons_inv hsot
    simp only [goodElems, Bool.and_eq_true] at hges
    cases f with
    | zero => simp [needL] at hf
    | succ f1 =>
      have hm : max (needV e) (needL (e2 :: es2)) ≤ f1 := by
        have h0 : 1 + max (needV e) (needL (e2 :: es2)) ≤ f1 + 1 := by
          simpa [needL] using hf
        omega
      have hne : needV e ≤ f1 := le_trans (Nat.le_max_left _ _) hm
      have hnl : needL (e2 :: es2) ≤ f1 := le_trans (Nat.le_max_right _ _) hm
      simp only [gArrLoop]
      rw [show oe ++ (',' :: (oe2 ++ ot2)) ++ (']' :: rest) =
        oe ++ (',' :: (oe2 ++ (ot2 ++ (']' :: rest)))) by simp]
      rw [he oe f1 (',' :: (oe2 ++ (ot2 ++ (']' :: rest)))) hge hsoe hne
        (fun _ => by rw [peekC_cons]; decide)]
      simp only [skipWs_cons_false (show isWsChar ',' = false by decide),
        peekC_cons, eq_self_iff_true, ite_true]
      obtain ⟨c2, t2c, hoe2eq, hcw, _, _, _, _⟩ := serW_head hges.1 hsoe2
      have hthis := ih e2 (hes e2 (List.mem_cons_self _ _))
        (fun x hx => hes x (List.mem_cons_of_mem _ hx)) hges.1 hges.2
        oe2 ot2 hsoe2 hsot2 f1 hnl (acc ++ [e]) rest
      rw [hoe2eq] at hthis ⊢
      simp only [List.cons_append, List.append_assoc, List.tail_cons]
        at hthis ⊢
      rw [skipWs_cons_false hcw, hthis]
      simp

theorem rtObjLoop (ms : List (List Char × JValue)) :
    ∀ (k : List Char) (v : JValue), RTP v → (∀ x ∈ ms, RTP x.2) →
      goodStr k = true → goodV v = true → goodMembers ms = true →
      lookupK ms k = none →
      ∀ ov ot : List Char, serW v = some ov → serWMembers ms = some ot →
      ∀ f : Nat, needO ((k, v) :: ms) ≤ f →
      ∀ (acc : List (List Char × JValue)) (rest : List Char),
        lookupK acc k = none → (∀ p ∈ ms, lookupK acc p.1 = none) →
        gObjLoop f acc
          (dquote :: (k ++ dquote :: ':' :: (ov ++ ot ++ (rcurly :: rest)))) =
          .ok (.vobj (acc ++ (k, v) :: ms), rest) := by
  induction ms with
  | nil =>
    intro k v hv _ hgk hgv _ _ ov ot hsov hsot f hf acc rest hacck _
    obtain rfl := serWMembers_nil_inv hsot
    cases f with
    | zero => simp [needO] at hf
    | succ f1 =>
      have hne : needV v ≤ f1 := by
        have h0 : 1 + max (needV v) (needO ([] : List (List Char × JValue)))
            ≤ f1 + 1 := by simpa [needO] using hf
        have hm : max (needV v) (needO ([] : List (List Char × JValue)))
            ≤ f1 := by omega
        exact le_trans (Nat.le_max_left _ _) hm
      simp only [gObjLoop, peekC_cons, ne_eq, eq_self_iff_true, not_true,
        ite_false]
      rw [gParseStringRaw_ok _ hgk]
      simp only [skipWs_cons_false (show isWsChar ':' = false by decide),
        peekC_cons, ne_eq, eq_self_iff_true, not_true, ite_false,
        List.tail_cons, List.append_nil]
      obtain ⟨cv, tv, hoveq, hvw, _, _, _, _⟩ := serW_head hgv hsov
      rw [hoveq]
      simp only [List.cons_append, skipWs_cons_false hvw]
      rw [← List.cons_append, ← hoveq,
        hv ov f1 (rcurly :: rest) hgv hsov hne
          (fun _ => by rw [peekC_cons]; decide)]
      simp only [insertOverwrite_fresh v hacck,
        skipWs_cons_false (show isWsChar rcurly = false by decide),
        peekC_cons]
      rw [if_neg (show ¬ (rcurly = ',') by decide)]
      simp
  | cons m2 ms2 ih =>
    obtain ⟨k2, v2⟩ := m2
    intro k v hv hms hgk hgv hgms hlk ov ot hsov hsot f hf acc rest hacck
      hpms
    obtain ⟨om2, ot2, hsom2, hsot2, rfl⟩ := serWMembers_cons_inv hsot
    obtain ⟨ov2, hsov2, homeq⟩ := serWMember_inv hsom2
    simp only [goodMembers, Bool.and_eq_true] at hgms
    have hgk2 := hgms.1.1.1
    have hfresh2 := hgms.1.1.2
    have hgv2 := hgms.1.2
    have hgms2 := hgms.2
    rw [lookupK] at hlk
    by_cases hk2k : k2 = k
    · rw [if_pos hk2k] at hlk
      exact absurd hlk (by simp)
    · rw [if_neg hk2k] at hlk
      cases f with
      | zero => simp [needO] at hf
      | succ f1 =>
        have h0 : 1 + max (needV v) (needO ((k2, v2) :: ms2)) ≤ f1 + 1 := by
          simpa [needO] using hf
        have hm : max (needV v) (needO ((k2, v2) :: ms2)) ≤ f1 := by omega
        have hne : needV v ≤ f1 := le_trans (Nat.le_max_left _ _) hm
        have hno : needO ((k2, v2) :: ms2) ≤ f1 :=
          le_trans (Nat.le_max_right _ _) hm
        simp only [gObjLoop, peekC_cons, ne_eq, eq_self_iff_true, not_true,
          ite_false]
        rw [show (ov ++ (',' :: (om2 ++ ot2)) ++ (rcurly :: rest)) =
          ov ++ (',' :: (om2 ++ (ot2 ++ (rcurly :: rest)))) by simp]
        rw [gParseStringRaw_ok _ hgk]
        simp only [skipWs_cons_false (show isWsChar ':' = false by decide),
          peekC_cons, ne_eq, eq_self_iff_true, not_true, ite_false,
          List.tail_cons]
        obtain ⟨cv, tv, hoveq, hvw, _, _, _, _⟩ := serW_head hgv hsov
        rw [hoveq]
        simp only [List.cons_append, skipWs_cons_false hvw]
        rw [← List.cons_append, ← hoveq,
          hv ov f1 (',' :: (om2 ++ (ot2 ++ (rcurly :: rest)))) hgv hsov hne
            (fun _ => by rw [peekC_cons]; decide)]
        simp only [insertOverwrite_fresh v hacck,
          skipWs_cons_false (show isWsChar ',' = false by decide),
          peekC_cons, eq_self_iff_true, ite_true, List.tail_cons]
        have hknk2 : ∀ p ∈ ms2, p.1 ≠ k := lookupK_none_iff.mp hlk
        have hacc2k2 : lookupK (acc ++ [(k, v)]) k2 = none :=
          lookupK_append_none (hpms (k2, v2) (List.mem_cons_self _ _))
            (fun hkk => hk2k hkk.symm)
        have hacc2ms : ∀ p ∈ ms2, lookupK (acc ++ [(k, v)]) p.1 = none :=
          fun p hp => lookupK_append_none
            (hpms p (List.mem_cons_of_mem _ hp))
            (fun hkk => (hknk2 p hp) hkk.symm)
        have hthis := ih k2 v2 (hms (k2, v2) (List.mem_cons_self _ _))
          (fun x hx => hms x (List.mem_cons_of_mem _ hx)) hgk2 hgv2 hgms2
          (Option.isNone_iff_eq_none.mp hfresh2) ov2 ot2 hsov2 hsot2 f1 hno
          (acc ++ [(k, v)]) rest hacc2k2 hacc2ms
        rw [homeq]
        simp only [List.cons_append, List.append_assoc, List.tail_cons,
          skipWs_cons_false (show isWsChar dquote = false by decide)]
        simp only [List.append_assoc] at hthis
        rw [hthis]
        simp

theorem intToChars_head (n : Int) :
    ∃ c t, intToChars n = c :: t ∧ (c = '-' ∨ isDigitC c = true) := by
  by_cases hneg : n < 0
  · exact ⟨'-', natToChars (-n).toNat, by simp [intToChars, hneg], Or.inl rfl⟩
  · obtain ⟨c, t, hct, hcd⟩ := natToChars_head_digit n.toNat
    exact ⟨c, t, by simp [intToChars, hneg, hct], Or.inr hcd⟩

theorem numHead_dispatch {c : Char} (h : c = '-' ∨ isDigitC c = true) :
    c ≠ 'n' ∧ c ≠ 't' ∧ c ≠ 'f' ∧ c ≠ dquote ∧ c ≠ lcurly ∧ c ≠ '[' := by
  rcases h with rfl | hd
  · refine ⟨?_, ?_, ?_, ?_, ?_, ?_⟩ <;> decide
  · obtain ⟨_, _, _, _, hdq, _, _, hlc, _, hlb, _, _, _, hn, ht, hfc, _, _,
      _, _, _⟩ := digit_facts hd
    exact ⟨hn, ht, hfc, hdq, hlc, hlb⟩

/-- Round-trip at the value level: parsing the serialization of any
good value consumes exactly the serialization. -/
theorem rtV : ∀ v : JValue, RTP v := by
  intro v
  induction v using jvInd with
  | h0 =>
    intro out f rest _ hs hf _
    obtain rfl : out = ['n', 'u', 'l', 'l'] := by simpa [serW] using hs.symm
    cases f with
    | zero => simp [needV] at hf
    | succ f1 =>
      rw [gParseValue_null f1 (['n', 'u', 'l', 'l'] ++ rest) rfl]
      rfl
  | h1 =>
    intro out f rest _ hs hf _
    obtain rfl : out = ['f', 'a', 'l', 's', 'e'] := by
      simpa [serW] using hs.symm
    cases f with
    | zero => simp [needV] at hf
    | succ f1 =>
      rw [gParseValue_false f1 (['f', 'a', 'l', 's', 'e'] ++ rest) rfl]
      rfl
  | h2 =>
    intro out f rest _ hs hf _
    obtain rfl : out = ['t', 'r', 'u', 'e'] := by simpa [serW] using hs.symm
    cases f with
    | zero => simp [needV] at hf
    | succ f1 =>
      rw [gParseValue_true f1 (['t', 'r', 'u', 'e'] ++ rest) rfl]
      rfl
  | h3 h =>
    intro out f rest hg hs hf hnum
    cases h with
    | hr r => simp [goodV] at hg
    | hn n =>
      obtain rfl : out = intToChars n := by
        simpa [serW, serNum] using hs.symm
      have hg2 : inInt64 n = true := by simpa [goodV] using hg
      have hrest := hnum ⟨.hn n, rfl⟩
      cases f with
      | zero => simp [needV] at hf
      | succ f1 =>
        obtain ⟨c, t, hct, hcc⟩ := intToChars_head n
        obtain ⟨hn1, hn2, hn3, hn4, hn5, hn6⟩ := numHead_dispatch hcc
        have hpk : peekC (intToChars n ++ rest) = c := by
          rw [hct]
          rfl
        rw [gParseValue_default f1 (intToChars n ++ rest)
          (by rw [hpk]; exact hn1)
          (by rw [hpk]; exact hn2) (by rw [hpk]; exact hn3)
          (by rw [hpk]; exact hn4) (by rw [hpk]; exact hn5)
          (by rw [hpk]; exact hn6)]
        exact gParseNumber_int hg2 rest hrest
  | h4 s =>
    intro out f rest hg hs hf _
    obtain rfl : out = dquote :: s ++ [dquote] := by
      simpa [serW] using hs.symm
    have hgs : goodStr s = true := by simpa [goodV] using hg
    cases f with
    | zero => simp [needV] at hf
    | succ f1 =>
      rw [gParseValue_string f1 ((dquote :: s ++ [dquote]) ++ rest) rfl]
      rw [show (dquote :: s ++ [dquote]) ++ rest =
        dquote :: (s ++ dquote :: rest) by simp]
      rw [gParseStringRaw_ok rest hgs]
  | h5 es ihes =>
    intro out f rest hg hs hf _
    cases es with
    | nil => simp [serW] at hs
    | cons e es2 =>
      obtain ⟨oe, ot, hsoe, hsot, rfl⟩ := serW_arr_inv hs
      have hgel : goodElems (e :: es2) = true := by simpa [goodV] using hg
      have hge : goodV e = true ∧ goodElems es2 = true := by
        simpa [goodElems] using hgel
      cases f with
      | zero => simp [needV] at hf
      | succ f1 =>
        have hf2 : 2 + needL (e :: es2) ≤ f1 + 1 := by
          simpa [needV] using hf
        cases f1 with
        | zero => omega
        | succ f2 =>
          rw [gParseValue_arr (f2 + 1) ((('[' : Char) :: (oe ++ ot ++ [']'])) ++ rest) rfl]
          simp only [gParseArray]
          obtain ⟨c, t, hoeeq, hcw, hcrb, _, _, _⟩ := serW_head hge.1 hsoe
          rw [show ((('[' : Char) :: (oe ++ ot ++ [']'])) ++ rest).tail =
            oe ++ (ot ++ (']' :: rest)) by simp]
          rw [hoeeq]
          simp only [List.cons_append, skipWs_cons_false hcw, peekC_cons]
          rw [if_neg hcrb]
          have hloop := rtArrLoop es2 e (ihes e (List.mem_cons_self _ _))
            (fun x hx => ihes x (List.mem_cons_of_mem _ hx)) hge.1 hge.2
            oe ot hsoe hsot f2 (by omega) [] rest
          rw [hoeeq] at hloop
          simp only [List.cons_append, List.append_assoc, List.nil_append]
            at hloop
          rw [hloop]
  | h6 ms ihms =>
    intro out f rest hg hs hf _
    cases ms with
    | nil => simp [serW] at hs
    | cons m ms2 =>
      obtain ⟨k, v⟩ := m
      obtain ⟨om, ot, hsom, hsot, rfl⟩ := serW_obj_inv hs
      obtain ⟨ov, hsov, homeq⟩ := serWMember_inv hsom
      have hgml : goodMembers ((k, v) :: ms2) = true := by
        simpa [goodV] using hg
      simp only [goodMembers, Bool.and_eq_true] at hgml
      have hgk := hgml.1.1.1
      have hfresh := hgml.1.1.2
      have hgv := hgml.1.2
      have hgms2 := hgml.2
      cases f with
      | zero => simp [needV] at hf
      | succ f1 =>
        have hf2 : 2 + needO ((k, v) :: ms2) ≤ f1 + 1 := by
          simpa [needV] using hf
        cases f1 with
        | zero => omega
        | succ f2 =>
          rw [gParseValue_obj (f2 + 1) ((lcurly :: (om ++ ot ++ [rcurly])) ++ rest) rfl]
          simp only [gParseObject]
          rw [show ((lcurly :: (om ++ ot ++ [rcurly])) ++ rest).tail =
            om ++ (ot ++ (rcurly :: rest)) by simp]
          rw [homeq]
          simp only [List.cons_append, List.append_assoc,
            skipWs_cons_false (show isWsChar dquote = false by decide),
            peekC_cons]
          rw [if_neg (show ¬ (dquote = rcurly) by decide)]
          have hloop := rtObjLoop ms2 k v (ihms (k, v) (List.mem_cons_self _ _))
            (fun x hx => ihms x (List.mem_cons_of_mem _ hx)) hgk hgv hgms2
            (Option.isNone_iff_eq_none.mp hfresh) ov ot hsov hsot f2
            (by omega) [] rest rfl (fun p _ => rfl)
          simp only [List.append_assoc, List.nil_append] at hloop
          rw [hloop]

/-! ## Fuel bounds: the serialization is longer than the fuel the parser
needs, so the bound `4 * length + 8` chosen in `gParseCore` suffices -/

theorem needBoundL :
    ∀ es : List JValue,
      (∀ e ∈ es, ∀ out : List Char, goodV e = true → serW e = some out →
        needV e ≤ 4 * out.length) →
      goodElems es = true → ∀ ot : List Char, serWElems es = some ot →
      needL es ≤ 4 * ot.length + 2 := by
  intro es
  induction es with
  | nil =>
    intro _ _ ot hsot
    obtain rfl := serWElems_nil_inv hsot
    simp [needL]
  | cons e es2 ih =>
    intro hmem hge ot hsot
    obtain ⟨oe, ot2, hsoe, hsot2, rfl⟩ := serWElems_cons_inv hsot
    simp only [goodElems, Bool.and_eq_true] at hge
    have h1 : needV e ≤ 4 * oe.length :=
      hmem e (List.mem_cons_self _ _) oe hge.1 hsoe
    have h2 : needL es2 ≤ 4 * ot2.length + 2 :=
      ih (fun x hx => hmem x (List.mem_cons_of_mem _ hx)) hge.2 ot2 hsot2
    have hm : max (needV e) (needL es2) ≤
        4 * oe.length + (4 * ot2.length + 2) :=
      max_le (by omega) (by omega)
    simp only [needL, List.length_cons, List.length_append]
    omega

theorem needBoundO :
    ∀ ms : List (List Char × JValue),
      (∀ m ∈ ms, ∀ out : List Char, goodV m.2 = true → serW m.2 = some out →
        needV m.2 ≤ 4 * out.length) →
      goodMembers ms = true → ∀ ot : List Char, serWMembers ms = some ot →
      needO ms ≤ 4 * ot.length + 2 := by
  intro ms
  induction ms with
  | nil =>
    intro _ _ ot hsot
    obtain rfl := serWMembers_nil_inv hsot
    simp [needO]
  | cons m ms2 ih =>
    obtain ⟨k, v⟩ := m
    intro hmem hgm ot hsot
    obtain ⟨om, ot2, hsom, hsot2, rfl⟩ := serWMembers_cons_inv hsot
    obtain ⟨ov, hsov, homeq⟩ := serWMember_inv hsom
    simp only [goodMembers, Bool.and_eq_true] at hgm
    have h1 : needV v ≤ 4 * ov.length :=
      hmem (k, v) (List.mem_cons_self _ _) ov hgm.1.2 hsov
    have h2 : needO ms2 ≤ 4 * ot2.length + 2 :=
      ih (fun x hx => hmem x (List.mem_cons_of_mem _ hx)) hgm.2 ot2 hsot2
    have hm : max (needV v) (needO ms2) ≤
        4 * ov.length + (4 * ot2.length + 2) :=
      max_le (by omega) (by omega)
    have homl : om.length = k.length + 3 + ov.length := by
      rw [homeq]
      simp only [List.length_cons, List.length_append]
      omega
    simp only [needO, List.length_cons, List.length_append]
    rw [homl]
    omega

theorem needBoundV :
    ∀ v : JValue, ∀ out : List Char, goodV v = true → serW v = some out →
      needV v ≤ 4 * out.length := by
  intro v
  induction v using jvInd with
  | h0 =>
    intro out _ hs
    obtain rfl : out = ['n', 'u', 'l', 'l'] := by simpa [serW] using hs.symm
    simp [needV]
  | h1 =>
    intro out _ hs
    obtain rfl : out = ['f', 'a', 'l', 's', 'e'] := by
      simpa [serW] using hs.symm
    simp [needV]
  | h2 =>
    intro out _ hs
    obtain rfl : out = ['t', 'r', 'u', 'e'] := by simpa [serW] using hs.symm
    simp [needV]
  | h3 h =>
    intro out hg hs
    cases h with
    | hr r => simp [goodV] at hg
    | hn n =>
      obtain rfl : out = intToChars n := by
        simpa [serW, serNum] using hs.symm
      obtain ⟨c, t, hct, _⟩ := intToChars_head n
      rw [hct]
      simp only [needV, List.length_cons]
      omega
  | h4 s =>
    intro out _ hs
    obtain rfl : out = dquote :: s ++ [dquote] := by
      simpa [serW] using hs.symm
    simp only [needV, List.length_cons, List.length_append]
    omega
  | h5 es ihes =>
    intro out hg hs
    cases es with
    | nil => simp [serW] at hs
    | cons e es2 =>
      obtain ⟨oe, ot, hsoe, hsot, rfl⟩ := serW_arr_inv hs
      have hgel : goodElems (e :: es2) = true := by simpa [goodV] using hg
      have hel : serWElems (e :: es2) = some (',' :: (oe ++ ot)) := by
        simp [serWElems, hsoe, hsot]
      have hl := needBoundL (e :: es2) (fun x hx => ihes x hx) hgel
        (',' :: (oe ++ ot)) hel
      simp only [needV, List.length_cons, List.length_append] at hl ⊢
      omega
  | h6 ms ihms =>
    intro out hg hs
    cases ms with
    | nil => simp [serW] at hs
    | cons m ms2 =>
      obtain ⟨k, v⟩ := m
      obtain ⟨om, ot, hsom, hsot, rfl⟩ := serW_obj_inv hs
      have hgml : goodMembers ((k, v) :: ms2) = true := by
        simpa [goodV] using hg
      have hml : serWMembers ((k, v) :: ms2) = some (',' :: (om ++ ot)) := by
        simp [serWMembers, hsom, hsot]
      have ho := needBoundO ((k, v) :: ms2) (fun x hx => ihms x hx) hgml
        (',' :: (om ++ ot)) hml
      simp only [needV, List.length_cons, List.length_append] at ho ⊢
      omega

/-- Top-level round trip: `generic_reader::parse` on the writer's
output of a good container-rooted tree returns `true` with the root set
to exactly that tree. -/
theorem roundTrip (v : JValue) (out : List Char)
    (hroot : rootIsContainer v = true) (hg : goodV v = true)
    (hs : serW v = some out) : gParse out = .ok (some v) := by
  have hneed : needV v ≤ 4 * out.length := needBoundV v out hg hs
  have hrt := rtV v out (4 * out.length + 8 + 1) [] hg hs (by omega)
    (fun _ => by rw [peekC_nil]; decide)
  rw [List.append_nil] at hrt
  cases v with
  | vnull => simp [rootIsContainer] at hroot
  | vfalse => simp [rootIsContainer] at hroot
  | vtrue => simp [rootIsContainer] at hroot
  | vnum h => simp [rootIsContainer] at hroot
  | vstr s => simp [rootIsContainer] at hroot
  | varr es =>
    cases es with
    | nil => simp [serW] at hs
    | cons e es2 =>
      obtain ⟨oe, ot, hsoe, hsot, hout⟩ := serW_arr_inv hs
      subst hout
      rw [gParseValue_arr (4 * (('[' :: (oe ++ ot ++ [']'])).length) + 8)
        ('[' :: (oe ++ ot ++ [']'])) rfl] at hrt
      have hcore : gParseCore ('[' :: (oe ++ ot ++ [']'])) =
          .ok (.varr (e :: es2)) := by
        simp only [gParseCore,
          skipWs_cons_false (show isWsChar '[' = false by decide),
          peekC_cons]
        rw [if_neg (show ¬ (('[' : Char) = nulc) by decide),
          if_neg (show ¬ (('[' : Char) = lcurly) by decide)]
        simp only [ite_true, eq_self_iff_true]
        rw [hrt]
        simp only [skipWs, peekC_nil, ite_true, eq_self_iff_true]
      simp only [gParse, hcore]
  | vobj ms =>
    cases ms with
    | nil => simp [serW] at hs
    | cons m ms2 =>
      obtain ⟨om, ot, hsom, hsot, hout⟩ := serW_obj_inv hs
      subst hout
      rw [gParseValue_obj (4 * ((lcurly :: (om ++ ot ++ [rcurly])).length) + 8)
        (lcurly :: (om ++ ot ++ [rcurly])) rfl] at hrt
      have hcore : gParseCore (lcurly :: (om ++ ot ++ [rcurly])) =
          .ok (.vobj (m :: ms2)) := by
        simp only [gParseCore,
          skipWs_cons_false (show isWsChar lcurly = false by decide),
          peekC_cons]
        rw [if_neg (show ¬ (lcurly = nulc) by decide)]
        simp only [ite_true, eq_self_iff_true]
        rw [hrt]
        simp only [skipWs, peekC_nil, ite_true, eq_self_iff_true]
      simp only [gParse, hcore]

/-! ## Remaining helpers -/

/-- The scan loop of `reader.hpp`'s `parseString` never leaves a state whose
current character is a backslash or the `'u'` of an escape: whatever the
fuel, the model reports exhaustion, mirroring the C++ infinite loop that
re-inspects the same character forever. -/
theorem rdPSGo_stuck :
    ∀ (f : Nat) (s acc : List Char), (peekC s = bslash ∨ peekC s = 'u') →
      rdPSGo f s acc = .error .fuel := by
  intro f
  induction f with
  | zero => intro s acc _; rfl
  | succ f1 ih =>
    intro s acc h
    rcases h with h | h
    · simp only [rdPSGo, h, ite_true, eq_self_iff_true]
      exact ih s acc (Or.inl h)
    · simp only [rdPSGo, h, if_true]
      exact ih s acc (Or.inr h)

/-- Appending an element to an array and indexing at the old length yields
that element. -/
theorem arrGet_append (l : List JValue) (v : JValue) :
    arrGet (l ++ [v]) l.length = .ok v := by
  induction l with
  | nil => rfl
  | cons c t ih =>
    have h1 : t.length + 1 < (t ++ [v]).length + 1 := by simp
    have h2 : t.length < (t ++ [v]).length := by simp
    simp only [arrGet, List.length_cons, List.cons_append] at ih ⊢
    rw [dif_pos h1]
    rw [dif_pos h2] at ih
    simpa [List.get_cons_succ] using ih

/-! ## Claim C1 -/

/-- Claim C1, counterexample.  The claim cites two top-level entry
points; `Reader::parse` of `part_002` is one of them, and it accepts a
bare number at the root: it has no root-container restriction, no
whitespace-only check and no trailing-content check. -/
theorem c1_counterexample :
    r2ParseTop ['3'] = .ok (.vnum (.hn 3), []) ∧
    rootIsContainer (.vnum (.hn 3)) = false := ⟨rfl, rfl⟩

/-- Claim C1, amended to `generic_reader::parse` of `stream.hpp` (the
other cited entry point, `Reader::parse` of `part_002`, performs none of
these checks — see the counterexample): a successful parse implies the
first non-whitespace character is `'\x7b'` or `'['`; a whitespace-only
or empty input makes `parse` return `false` (`.ok none`); any other
first non-whitespace character makes `parse` return `false`; and
non-whitespace trailing content after a parsed root object or array
makes `parse` return `false`. -/
theorem c1_root_policy :
    (∀ s v, gParse s = .ok (some v) →
      peekC (skipWs s) = lcurly ∨ peekC (skipWs s) = '[') ∧
    (∀ s, s.all isWsChar = true → gParse s = .ok none) ∧
    (∀ s c, peekC (skipWs s) = c → c ≠ nulc → c ≠ lcurly → c ≠ '[' →
      gParse s = .ok none) ∧
    (∀ s v r c, peekC (skipWs s) = lcurly →
      gParseObject (4 * s.length + 8) (skipWs s) = .ok (v, r) →
      peekC (skipWs r) = c → c ≠ nulc → gParse s = .ok none) ∧
    (∀ s v r c, peekC (skipWs s) = '[' →
      gParseArray (4 * s.length + 8) (skipWs s) = .ok (v, r) →
      peekC (skipWs r) = c → c ≠ nulc → gParse s = .ok none) := by
  refine ⟨?_, ?_, ?_, ?_, ?_⟩
  · intro s v h
    by_cases h2 : peekC (skipWs s) = lcurly
    · exact Or.inl h2
    by_cases h3 : peekC (skipWs s) = '['
    · exact Or.inr h3
    by_cases h1 : peekC (skipWs s) = nulc
    · simp [gParse, gParseCore, h1, Err.isParsingError] at h
    · simp [gParse, gParseCore, h1, h2, h3, Err.isParsingError] at h
  · intro s hws
    have h1 : skipWs s = [] := skipWs_nil_of_all hws
    simp [gParse, gParseCore, h1, peekC_nil, Err.isParsingError]
  · intro s c hc hn hl hb
    subst hc
    simp [gParse, gParseCore, hn, hl, hb, Err.isParsingError]
  · intro s v r c h1 h2 h3 h4
    subst h3
    have e1 : ¬ (lcurly = nulc) := by decide
    simp [gParse, gParseCore, e1, h1, h2, h4, Err.isParsingError]
  · intro s v r c h1 h2 h3 h4
    subst h3
    have e1 : ¬ (('[' : Char) = nulc) := by decide
    have e2 : ¬ (('[' : Char) = lcurly) := by decide
    simp [gParse, gParseCore, e1, e2, h1, h2, h4, Err.isParsingError]

/-- Claim C1 witness: the root policy applied at concrete inputs. -/
theorem c1_witness :
    (peekC (skipWs ['[', ']']) = lcurly ∨ peekC (skipWs ['[', ']']) = '[') ∧
    gParse [' ', ' '] = .ok none ∧
    gParse ['3'] = .ok none ∧
    gParse [lcurly, rcurly, 'x'] = .ok none ∧
    gParse ['[', ']', 'x'] = .ok none := by
  refine ⟨?_, ?_, ?_, ?_, ?_⟩
  · exact c1_root_policy.1 ['[', ']'] (.varr []) rfl
  · exact c1_root_policy.2.1 [' ', ' '] (by decide)
  · exact c1_root_policy.2.2.1 ['3'] '3' rfl (by decide) (by decide) (by decide)
  · exact c1_root_policy.2.2.2.1 [lcurly, rcurly, 'x'] (.vobj []) ['x'] 'x'
      rfl rfl rfl (by decide)
  · exact c1_root_policy.2.2.2.2 ['[', ']', 'x'] (.varr []) ['x'] 'x'
      rfl rfl rfl (by decide)

/-! ## Claim C2 -/

/-- Claim C2, counterexample.  The claim's value class includes scalar
roots, but `generic_reader::parse` rejects any root that is not an
object or array: the writer renders a Null root as `null`, and parsing
that text back returns `false` (`.ok none`) instead of reproducing the
tree. -/
theorem c2_counterexample :
    serW .vnull = some ['n', 'u', 'l', 'l'] ∧
    gParse ['n', 'u', 'l', 'l'] = .ok none :=
  ⟨by simp [serW], rfl⟩

/-- Claim C2, amended round trip: for a tree rooted at an array or
object (scalar roots are rejected, see the counterexample), with
non-empty containers (the writer's `size() - 1` underflows on empty
ones), strings free of `'"'`, backslash and `'\0'` (escapes are
unsupported), distinct member names within each object and
`NaturalNumber` payloads within `long long` range (a `RealNumber`
re-parses only up to the 6-significant-digit stream formatting),
parsing the writer's output reproduces the tree exactly. -/
theorem c2_roundtrip (v : JValue) (out : List Char)
    (hroot : rootIsContainer v = true) (hg : goodV v = true)
    (hs : serW v = some out) : gParse out = .ok (some v) :=
  roundTrip v out hroot hg hs

/-- Claim C2 witness: the round trip at a concrete two-level tree. -/
theorem c2_witness :
    gParse [lcurly, dquote, 'a', dquote, ':', '[', 'n', 'u', 'l', 'l', ',',
        't', 'r', 'u', 'e', ']', rcurly] =
      .ok (some (.vobj [(['a'], .varr [.vnull, .vtrue])])) :=
  c2_roundtrip (.vobj [(['a'], .varr [.vnull, .vtrue])])
    [lcurly, dquote, 'a', dquote, ':', '[', 'n', 'u', 'l', 'l', ',',
        't', 'r', 'u', 'e', ']', rcurly]
    rfl
    (by simp [goodV, goodMembers, goodElems, goodStr, isGoodChar, lookupK] <;>
      decide)
    (by simp [serW, serWMember, serWMembers, serWElems])

/-! ## Claim C3 -/

/-- Claim C3, counterexample.  `std::stoll` applied to the token `e`
(scanned by `parseNumber` from the input `[e]`) throws
`std::invalid_argument`, which derives from `std::logic_error`, not from
`std::runtime_error`; the top-level `catch (std::runtime_error&)` does
not match it, so the numeric conversion failure escapes `parse` as an
exception instead of becoming the boolean failure the claim
describes. -/
theorem c3_counterexample :
    gParse ['[', 'e', ']'] = .error .invalidArgument ∧
    Err.isParsingError .invalidArgument = false := ⟨rfl, rfl⟩

/-- Claim C3, amended.  Any exception escaping `parse` is a numeric
conversion failure, never a structural `parsing_error`; a thrown
`parsing_error` (`isParsingError`) is caught at the top level and turned
into `false` (`.ok none`); a numeric conversion failure
(`std::invalid_argument` / `std::out_of_range`) escapes as an exception;
a completed body returns `true` with the root set; and the recursive
calls catch nothing — an error from a nested `parseValue` propagates
unchanged through the array and object member loops. -/
theorem c3_error_propagation :
    (∀ s e, gParse s = .error e → e.isParsingError = false) ∧
    (∀ s e, gParseCore s = .error e → e.isParsingError = true →
      gParse s = .ok none) ∧
    (∀ s e, gParseCore s = .error e → e.isParsingError = false →
      gParse s = .error e) ∧
    (∀ s v, gParseCore s = .ok v → gParse s = .ok (some v)) ∧
    (∀ f acc s e, gParseValue f s = .error e →
      gArrLoop (f + 1) acc s = .error e) ∧
    (∀ f acc s k s2 e, peekC s = dquote → gParseStringRaw s = .ok (k, s2) →
      peekC (skipWs s2) = ':' →
      gParseValue f (skipWs (skipWs s2).tail) = .error e →
      gObjLoop (f + 1) acc s = .error e) := by
  refine ⟨?_, ?_, ?_, ?_, ?_, ?_⟩
  · intro s e h
    cases hc : gParseCore s with
    | ok v => simp [gParse, hc] at h
    | error e2 =>
      simp only [gParse, hc] at h
      cases hb : e2.isParsingError with
      | true => rw [if_pos hb] at h; simp at h
      | false =>
        rw [if_neg (by simp [hb])] at h
        injection h with h2
        exact h2 ▸ hb
  · intro s e hc hp
    simp [gParse, hc, hp]
  · intro s e hc hp
    simp [gParse, hc, hp]
  · intro s v hc
    simp [gParse, hc]
  · intro f acc s e h
    simp [gArrLoop, h]
  · intro f acc s k s2 e hdq hstr hcolon hval
    simp [gObjLoop, hdq, hstr, hcolon, hval]

/-- Claim C3 witness: the propagation policy at concrete inputs. -/
theorem c3_witness :
    Err.isParsingError .invalidArgument = false ∧
    gParse [' '] = .ok none ∧
    gParse ['[', 'x', ']'] = .error .invalidArgument ∧
    gParse [lcurly, rcurly] = .ok (some (.vobj [])) ∧
    gArrLoop (1 + 1) [] ['e'] = .error .invalidArgument ∧
    gObjLoop (1 + 1) [] [dquote, 'a', dquote, ':', 'e', rcurly] =
      .error .invalidArgument := by
  refine ⟨?_, ?_, ?_, ?_, ?_, ?_⟩
  · exact c3_error_propagation.1 ['[', 'e', ']'] .invalidArgument rfl
  · exact c3_error_propagation.2.1 [' '] .wsOnly rfl rfl
  · exact c3_error_propagation.2.2.1 ['[', 'x', ']'] .invalidArgument rfl rfl
  · exact c3_error_propagation.2.2.2.1 [lcurly, rcurly] (.vobj []) rfl
  · exact c3_error_propagation.2.2.2.2.1 1 [] ['e'] .invalidArgument rfl
  · exact c3_error_propagation.2.2.2.2.2 1 []
      [dquote, 'a', dquote, ':', 'e', rcurly] ['a'] [':', 'e', rcurly]
      .invalidArgument rfl rfl rfl rfl

/-! ## Claim C4 -/

/-- Claim C4, counterexample.  In `reader.hpp`'s `parseString` the
backslash case of the scan `switch` merely breaks out of the `switch`
without consuming the character, so the `while (true)` loop re-reads
the same backslash forever: on a string containing a backslash this
cited revision diverges (`rdPSDiverges`: the loop exceeds any bound)
instead of raising the fatal "unsupported escape" error the claim
describes. -/
theorem c4_counterexample :
    rdPSDiverges (bslash :: 'a' :: [dquote]) ∧
    rdParseString (dquote :: bslash :: 'a' :: [dquote]) = .error .fuel := by
  constructor
  · intro f acc
    exact rdPSGo_stuck f (bslash :: 'a' :: [dquote]) acc (Or.inl rfl)
  · rfl

/-- Claim C4, amended to `generic_reader::parseString` of `stream.hpp`
(the other cited revision, in `reader.hpp`, loops forever on a
backslash instead — see the counterexample): a string token whose body
characters are plain (no quote, no backslash, no `'\0'`) parses to
exactly those characters with the cursor past the closing quote; a
backslash before the closing quote raises the fatal "unsupported
escape" error; and reaching `'\0'` or the end of input before a closing
quote raises the fatal unterminated-string error. -/
theorem c4_parse_string :
    (∀ a rest, a.all isGoodChar = true →
      gParseStringRaw (dquote :: (a ++ dquote :: rest)) = .ok (a, rest)) ∧
    (∀ a rest, a.all isGoodChar = true →
      gParseStringRaw (dquote :: (a ++ bslash :: rest)) =
        .error .unsupportedEscape) ∧
    (∀ a, (∀ c ∈ a, c ≠ dquote ∧ c ≠ bslash) →
      gParseStringRaw (dquote :: a) = .error .unterminatedString) := by
  refine ⟨?_, ?_, ?_⟩
  · intro a rest h
    exact gParseStringRaw_ok rest h
  · intro a rest h
    rw [gParseStringRaw, List.tail_cons]
    exact goString_escape a rest [] h
  · intro a h
    rw [gParseStringRaw, List.tail_cons]
    exact goString_unterminated a [] h

/-- Claim C4 witness: the three string outcomes at concrete tokens. -/
theorem c4_witness :
    gParseStringRaw [dquote, 'a', 'b', dquote, ':'] = .ok (['a', 'b'], [':']) ∧
    gParseStringRaw [dquote, 'a', bslash, 'n', dquote] =
      .error .unsupportedEscape ∧
    gParseStringRaw [dquote, 'a', 'b'] = .error .unterminatedString := by
  refine ⟨?_, ?_, ?_⟩
  · exact c4_parse_string.1 ['a', 'b'] [':'] (by decide)
  · exact c4_parse_string.2.1 ['a'] ['n', dquote] (by decide)
  · exact c4_parse_string.2.2 ['a', 'b'] (by decide)

/-! ## Claim C5 -/

/-- Claim C5, counterexample.  `Value::insert` of `value.hpp` (one of
the two cited insert functions) uses `std::map::emplace`, which inserts
nothing when the key is already present: the existing value 1 is kept
and the new value 2 is discarded, not written over the old one. -/
theorem c5_counterexample :
    insertKeepFirst [(['a'], .vnum (.hn 1))] ['a'] (.vnum (.hn 2)) =
      [(['a'], .vnum (.hn 1))] ∧
    lookupK (insertKeepFirst [(['a'], .vnum (.hn 1))] ['a'] (.vnum (.hn 2)))
      ['a'] = some (.vnum (.hn 1)) := ⟨rfl, rfl⟩

/-- Claim C5, amended to `generic_value::insert` of `jsoncxx.hpp` /
`part_000`, the insert used by the `stream.hpp` parser: inserting over
an existing key overwrites that key's mapped value in place, a new key
adds a new pair, and parsing an object with a duplicated member name
yields the last value written for that name.  `Value::insert` of
`value.hpp` (`std::map::emplace`) instead keeps the first value, see
the counterexample. -/
theorem c5_insert_semantics :
    (∀ o k v, lookupK (insertOverwrite o k v) k = some v) ∧
    (∀ o k v, lookupK o k = none → insertOverwrite o k v = o ++ [(k, v)]) ∧
    gParse [lcurly, dquote, 'a', dquote, ':', '1', ',', dquote, 'a', dquote,
        ':', '2', rcurly] = .ok (some (.vobj [(['a'], .vnum (.hn 2))])) := by
  refine ⟨?_, ?_, ?_⟩
  · exact lookupK_insertOverwrite
  · exact fun o k v h => insertOverwrite_fresh v h
  · rfl

/-! ## Claim C6 -/

/-- Claim C6: the cited revisions disagree, and the `part_000` accessors
perform no conversion.  `Value::asNatural` / `asReal` of `value.hpp` do
convert (`static_cast`), truncating 2.5 to 2 and widening an integer to
the equal real; `generic_value::asNatural` of `part_000` returns the
union member `value_.n.num_.n` unconditionally — on a `RealNumber`
payload it re-reads the stored double's object representation as
`long long` (modelled as `none`: no converted value is produced) — and
its `asReal` likewise re-reads a `NaturalNumber` payload as `double`. -/
theorem c6_numeric_access :
    NumberH.kind (.hr (5 / 2 : Rat)) = .realNumber ∧
    vAsNatural (.hr (5 / 2 : Rat)) = 2 ∧
    vAsNatural (.hr (-(5 / 2) : Rat)) = -2 ∧
    vAsReal (.hn 3) = 3 ∧
    p000AsNatural (.hr (5 / 2 : Rat)) = none ∧
    p000AsNatural (.hn 7) = some 7 ∧
    p000AsReal (.hn 3) = none := by
  refine ⟨rfl, ?_, ?_, ?_, rfl, rfl, rfl⟩
  · norm_num [vAsNatural, truncQ]
  · simp only [vAsNatural, truncQ]
    rw [if_neg (by norm_num), Int.ceil_neg]
    norm_num
  · norm_num [vAsReal]

/-! ## Claim C7 -/

/-- Claim C7: for `writer.hpp` an empty container is undefined
behaviour, not `[]` or `\x7b\x7d`.  `writeArray` computes
`std::next(a.begin(), a.size() - 1)` and `a.back()`; with
`a.size() == 0` the unsigned `size() - 1` wraps around, `std::next`
walks past the end of the `std::list` and `back()` dereferences the
sentinel of an empty list (modelled as `none`: no well-defined text is
produced), and `writeObject` does the same for objects.  The
`operator<<` of `value.hpp` guards with `empty()` and does print `[]`
and `\x7b\x7d`; on non-empty containers both serializers produce the
bracketed, comma-joined form. -/
theorem c7_empty_containers :
    serW (.varr []) = none ∧
    serW (.vobj []) = none ∧
    serV (.varr []) = ['[', ']'] ∧
    serV (.vobj []) = [lcurly, rcurly] ∧
    serW (.varr [.vnull]) = some ['[', 'n', 'u', 'l', 'l', ']'] ∧
    serV (.varr [.vnull]) = ['[', 'n', 'u', 'l', 'l', ']'] := by
  refine ⟨?_, ?_, ?_, ?_, ?_, ?_⟩
  · simp [serW]
  · simp [serW]
  · simp [serV, serVElems]
  · simp [serV, serVMembers]
  · simp [serW, serWElems]
  · simp [serV, serVElems]

/-! ## Claim C8 -/

/-- Claim C8: `Array::operator[]` is bounds-checked — an index below
`size()` yields the index-th element in insertion order (in particular
an appended element sits at the old `size()`), and any index at or
above `size()`, in particular `size()` itself, raises the
"Out of range" error instead of reading outside the stored element
sequence. -/
theorem c8_array_bounds :
    ∀ (l : List JValue) (i : Nat),
      (∀ h : i < l.length, arrGet l i = .ok (l.get ⟨i, h⟩)) ∧
      (l.length ≤ i → arrGet l i = .error "Out of range") ∧
      (∀ v, arrGet (l ++ [v]) l.length = .ok v) := by
  intro l i
  refine ⟨?_, ?_, ?_⟩
  · intro h
    simp only [arrGet]
    rw [dif_pos h]
  · intro h
    simp only [arrGet]
    rw [dif_neg (by omega)]
  · intro v
    exact arrGet_append l v

/-- Claim C8 witness: bounds behaviour at a concrete array. -/
theorem c8_witness :
    arrGet [JValue.vtrue, JValue.vfalse] 1 = .ok JValue.vfalse ∧
    arrGet [JValue.vtrue, JValue.vfalse] 2 = .error "Out of range" ∧
    arrGet ([JValue.vtrue] ++ [JValue.vfalse]) 1 = .ok JValue.vfalse := by
  refine ⟨?_, ?_, ?_⟩
  · exact (c8_array_bounds [JValue.vtrue, JValue.vfalse] 1).1 (by decide)
  · exact (c8_array_bounds [JValue.vtrue, JValue.vfalse] 2).2.1 (by decide)
  · exact (c8_array_bounds [JValue.vtrue] 1).2.2 JValue.vfalse

/-! ## Claim C9 -/

/-- Claim C9, counterexample.  Move assignment in `jsoncxx.hpp` /
`part_000` is implemented as `clear()` followed by swaps, and `clear()`
resets only container tags: with a Number destination and a String
source the destination's old Number payload and tag are swapped into
the source, which is left holding the old number — not Null; with a
Number destination and a True source no payload swap happens and the
source is left with a `NumberType` tag over a payload it never owned
(an indeterminate number). -/
theorem c9_counterexample :
    (jxMoveAssign (.vnum (.hn 7)) (.vstr ['x'])).2 =
      CVal.coh (.vnum (.hn 7)) ∧
    (jxMoveAssign (.vnum (.hn 7)) JValue.vtrue).2 = CVal.junkNumber ∧
    CVal.coh (.vnum (.hn 7)) ≠ CVal.coh JValue.vnull := by
  refine ⟨rfl, rfl, ?_⟩
  simp

/-- Claim C9, amended.  Move construction transfers tag and payload and
nulls the source in every revision, and `value.hpp`'s move assignment
always leaves the source Null as well (it sets the source's tag to
`NullType` explicitly after the swap).  The swap-based move assignment
of `jsoncxx.hpp` / `part_000` transfers the source's tag and payload to
the destination, but leaves the source as Null only when the cleared
destination is Null — that is, when the destination was Null or a
container; a Number, True or False destination leaks its old state into
the source (see the counterexample). -/
theorem c9_move_semantics :
    (∀ src, jxMoveCtor src = (src, .vnull)) ∧
    (∀ dst src, vMoveAssign dst src = (src, .vnull)) ∧
    (∀ dst src, (jxMoveAssign dst src).1 = src) ∧
    (∀ dst src, jxClear dst = .vnull →
      (jxMoveAssign dst src).2 = CVal.coh .vnull) := by
  refine ⟨?_, ?_, ?_, ?_⟩
  · intro src; rfl
  · intro dst src; rfl
  · intro dst src
    cases hb : swapsPayload src with
    | true => simp [jxMoveAssign, hb]
    | false => simp [jxMoveAssign, hb]
  · intro dst src h
    cases hb : swapsPayload src with
    | true => simp [jxMoveAssign, hb, h]
    | false => simp [jxMoveAssign, hb, h]

/-- Claim C9 witness: move results at concrete values. -/
theorem c9_witness :
    jxMoveCtor (.vstr ['x']) = (.vstr ['x'], .vnull) ∧
    vMoveAssign (.vnum (.hn 7)) (.vstr ['x']) = (.vstr ['x'], .vnull) ∧
    (jxMoveAssign (.varr [.vtrue]) (.vstr ['x'])).1 = .vstr ['x'] ∧
    (jxMoveAssign (.varr [.vtrue]) (.vstr ['x'])).2 = CVal.coh .vnull := by
  refine ⟨?_, ?_, ?_, ?_⟩
  · exact c9_move_semantics.1 (.vstr ['x'])
  · exact c9_move_semantics.2.1 (.vnum (.hn 7)) (.vstr ['x'])
  · exact c9_move_semantics.2.2.1 (.varr [.vtrue]) (.vstr ['x'])
  · exact c9_move_semantics.2.2.2 (.varr [.vtrue]) (.vstr ['x']) rfl

/-! ## Claim C10

`std::stoll` on a sign-and-digits prefix followed by non-digit
characters: the lemmas below settle the three sign shapes. -/

theorem stoll_digits_stop (ds tail : List Char) (hds : ds ≠ [])
    (hall : ds.all isDigitC = true)
    (htail : ∀ c, tail.head? = some c → isDigitC c = false)
    (hrange : inInt64 (valOfDigits ds : Int) = true) :
    stollModel (ds ++ tail) = .ok (valOfDigits ds : Int) := by
  have htake := takeWhile_all_stop ds tail hall htail
  obtain ⟨d, ds2, rfl⟩ : ∃ d ds2, ds = d :: ds2 := by
    cases ds with
    | nil => exact absurd rfl hds
    | cons d ds2 => exact ⟨d, ds2, rfl⟩
  have hd : isDigitC d = true := by
    simp only [List.all_cons, Bool.and_eq_true] at hall
    exact hall.1
  obtain ⟨hws, hsp, hgood, hscand, hdq, hbs, hnu, hlc, hrc, hlb, hrb, hcm,
    hcl, hnn, htt, hff, hdot2, hminus, hplus, he2, hE2⟩ := digit_facts hd
  have hb := int64_range hrange
  simp only [List.cons_append] at htake ⊢
  simp only [stollModel]
  rw [dropWhile_cons_false hsp]
  simp only [peekC_cons, hminus, hplus, false_or, or_self, ite_false,
    htake, List.cons_ne_nil, one_mul]
  rw [if_neg]
  simp only [Bool.or_eq_true, decide_eq_true_iff, not_or, not_lt]
  simp only [int64Min, int64Max] at hb ⊢
  omega

theorem stoll_neg_digits (ds tail : List Char) (hds : ds ≠ [])
    (hall : ds.all isDigitC = true)
    (htail : ∀ c, tail.head? = some c → isDigitC c = false)
    (hrange : inInt64 (-(valOfDigits ds : Int)) = true) :
    stollModel ('-' :: (ds ++ tail)) = .ok (-(valOfDigits ds : Int)) := by
  have htake := takeWhile_all_stop ds tail hall htail
  have hb := int64_range hrange
  simp only [stollModel]
  rw [dropWhile_cons_false (show isCSpace '-' = false by decide)]
  simp only [peekC_cons, true_or, ite_true, List.tail_cons, htake, hds,
    ite_false, neg_one_mul]
  rw [if_neg]
  simp only [Bool.or_eq_true, decide_eq_true_iff, not_or, not_lt]
  simp only [int64Min, int64Max] at hb ⊢
  omega

theorem stoll_plus_digits (ds tail : List Char) (hds : ds ≠ [])
    (hall : ds.all isDigitC = true)
    (htail : ∀ c, tail.head? = some c → isDigitC c = false)
    (hrange : inInt64 (valOfDigits ds : Int) = true) :
    stollModel ('+' :: (ds ++ tail)) = .ok (valOfDigits ds : Int) := by
  have htake := takeWhile_all_stop ds tail hall htail
  have hb := int64_range hrange
  simp only [stollModel]
  rw [dropWhile_cons_false (show isCSpace '+' = false by decide)]
  simp only [peekC_cons, (show ('+' : Char) ≠ '-' by decide), false_or,
    or_true, ite_true, ite_false, List.tail_cons, htake, hds, one_mul]
  rw [if_neg]
  simp only [Bool.or_eq_true, decide_eq_true_iff, not_or, not_lt]
  simp only [int64Min, int64Max] at hb ⊢
  omega

/-- Claim C10: on a token made of an optional sign, a non-empty digit
run and an exponent suffix (an `'e'`/`'E'` in the tail, no `'.'`
anywhere), `parseNumber` consumes the whole scanned token from the
stream but stores a `NaturalNumber` equal to the signed value of the
leading digit run only — `std::stoll` stops at the first non-digit and
`parseNumber` ignores how far the conversion got — and, provided that
leading value fits `long long`, raises no error. -/
theorem c10_exponent_prefix (sgn ds tail rest : List Char)
    (hsgn : sgn = [] ∨ sgn = ['-'] ∨ sgn = ['+'])
    (hds : ds ≠ []) (hall : ds.all isDigitC = true)
    (htail : ∀ c, tail.head? = some c → isDigitC c = false)
    (hscan : (sgn ++ ds ++ tail).all isScanChar = true)
    (hexp : 'e' ∈ tail ∨ 'E' ∈ tail)
    (hdot : '.' ∉ sgn ++ ds ++ tail)
    (hrest : isScanChar (peekC rest) = false)
    (hrange : inInt64 ((if sgn = ['-'] then -1 else 1) *
      (valOfDigits ds : Int)) = true) :
    gParseNumber ((sgn ++ ds ++ tail) ++ rest) =
      .ok (.vnum (.hn ((if sgn = ['-'] then -1 else 1) *
        (valOfDigits ds : Int))), rest) := by
  have hscan2 := scanNum_append (sgn ++ ds ++ tail) rest hscan hrest
  simp only [gParseNumber, hscan2]
  rw [if_neg hdot]
  rcases hsgn with rfl | rfl | rfl
  · rw [if_neg (show ¬ (([] : List Char) = ['-']) by decide), one_mul]
    rw [List.nil_append]
    have hrange2 : inInt64 (valOfDigits ds : Int) = true := by
      rw [if_neg (show ¬ (([] : List Char) = ['-']) by decide), one_mul]
        at hrange
      exact hrange
    rw [stoll_digits_stop ds tail hds hall htail hrange2]
  · rw [if_pos rfl, neg_one_mul]
    rw [show ((['-'] ++ ds ++ tail : List Char)) = '-' :: (ds ++ tail)
      from by simp]
    have hrange2 : inInt64 (-(valOfDigits ds : Int)) = true := by
      rw [if_pos rfl, neg_one_mul] at hrange
      exact hrange
    rw [stoll_neg_digits ds tail hds hall htail hrange2]
  · rw [if_neg (show ¬ ((['+'] : List Char) = ['-']) by decide), one_mul]
    rw [show ((['+'] ++ ds ++ tail : List Char)) = '+' :: (ds ++ tail)
      from by simp]
    have hrange2 : inInt64 (valOfDigits ds : Int) = true := by
      rw [if_neg (show ¬ ((['+'] : List Char) = ['-']) by decide), one_mul]
        at hrange
      exact hrange
    rw [stoll_plus_digits ds tail hds hall htail hrange2]

/-- Claim C10, counterexample to the raises-no-error part in general:
a token whose leading digit run is empty (here `e1`, a valid token of
the claim's class) makes `std::stoll` throw `std::invalid_argument`
rather than store anything. -/
theorem c10_counterexample :
    gParseNumber ['e', '1', ']'] = .error .invalidArgument := rfl

/-- Claim C10 witness: the token `1e5` is consumed whole and stored as
Natural 1, not 100000. -/
theorem c10_witness :
    gParseNumber ['1', 'e', '5', ','] = .ok (.vnum (.hn 1), [',']) :=
  c10_exponent_prefix [] ['1'] ['e', '5'] [','] (Or.inl rfl) (by decide)
    (by decide)
    (by intro c hc; injection hc with h; subst h; decide)
    (by decide) (Or.inl (by decide)) (by decide) (by decide) (by decide)

end Jsoncxx
